import Mathlib

/-!
go-mail-testserver: the in-memory message store and its HTTP front

A shallow embedding of `internal/httpapi/storage.go` (the `Storage` type with
`NewStorage`, `Add`, `List`, `Get`, `Clear`), of the identifier handling of
`internal/httpapi/api.go` (`handleEmail`, `handleRawEmail`) and of the session
of `internal/commonssmtp/server.go` (`Mail`, `Rcpt`, `Data`, `msgFromRaw`).

**Memory**

`Storage.messages` is a `map[int]*Message`: the store keeps the *pointer* the
caller hands to `Add`, and `Add` writes `ID` and `CreatedAt` through that
pointer.  `Message.To` and `Message.Raw` are slices, that is references to
backing arrays.  Aliasing therefore matters, and the embedding keeps an explicit
memory:

* `Memory.objs`     : the `Message` structs, addressed by index (a `*Message`
                      is an index; an index past the end models `nil`);
* `Memory.strArrs`  : backing arrays of `[]string` values;
* `Memory.byteArrs` : backing arrays of `[]byte` values.

A slice header is `(arr, off, len)`.  The capacity plays no part in
`storage.go` (its `append` calls start from a `nil` slice); it does in
`server.go`, where the session keeps it next to the header.  Go has garbage
collection, so no reference ever dangles: `Memory.WF` states this.

**Integers**

`int` is modelled by `Int` without wrap-around.  The id counter is one more than
the number of keys in the map (`Clear` resets both), so a counter near `2^63`
needs a map with as many entries, which no address space holds.

**Results**

A function returns `none` where the Go code panics (a `nil` dereference, an
index out of range).

**Time**

`Add` reads the clock.  The string `time.Now().UTC().Format(time.RFC3339)`
evaluates to is an argument of `Storage.Add`.

**Traces**

The states of the store that the theorems speak about are those `run` reaches
from `World.init` by a list of `Op`: allocations by the callers and calls of
`Add`, `Get`, `List`, `Clear`, one after the other (the lock of `Storage`
serialises the calls; it is not modelled).
-/

namespace httpapi

/-- A Go `byte`. -/
abbrev Byte := Fin 256

/-- A slice header: backing array, offset of the first element, length.  The
`nil` slice is `Slice.nil`; any slice of length `0` reads as empty. -/
structure Slice where
  arr : Nat
  off : Nat
  len : Nat
deriving DecidableEq, Repr

/-- The `nil` slice. -/
def Slice.nil : Slice := ⟨0, 0, 0⟩

/-- Message, the struct of `storage.go`.  `To` and `Raw` are slice headers. -/
structure Message where
  ID : Int
  From : String
  To : Slice
  Subject : String
  Body : String
  CreatedAt : String
  Raw : Slice
deriving DecidableEq, Repr

/-- The part of the process memory the store and its callers share. -/
structure Memory where
  objs : List Message
  strArrs : List (List String)
  byteArrs : List (List Byte)
deriving DecidableEq, Repr

/-- Storage, the struct of `storage.go` without its lock: `messages` is the
map from id to `*Message`, kept as an association list with distinct keys. -/
structure Storage where
  messages : List (Int × Nat)
  nextID : Int
deriving DecidableEq, Repr

/-- One `Storage` object together with the memory it points into. -/
structure World where
  mem : Memory
  store : Storage
deriving DecidableEq, Repr

/-! ### Slices and maps -/

/-- The elements a `[]string` slice denotes in a memory. -/
def Memory.readStrs (m : Memory) (s : Slice) : List String :=
  ((m.strArrs.getD s.arr []).drop s.off).take s.len

/-- The elements a `[]byte` slice denotes in a memory. -/
def Memory.readBytes (m : Memory) (s : Slice) : List Byte :=
  ((m.byteArrs.getD s.arr []).drop s.off).take s.len

/-- `append([]string(nil), s...)`: the `nil` slice when `s` is empty, otherwise
a slice over a newly allocated backing array holding the elements of `s`. -/
def Memory.copyStrs (m : Memory) (s : Slice) : Memory × Slice :=
  if s.len = 0 then (m, Slice.nil)
  else ({ m with strArrs := m.strArrs ++ [m.readStrs s] }, ⟨m.strArrs.length, 0, s.len⟩)

/-- `append([]byte(nil), s...)`. -/
def Memory.copyBytes (m : Memory) (s : Slice) : Memory × Slice :=
  if s.len = 0 then (m, Slice.nil)
  else ({ m with byteArrs := m.byteArrs ++ [m.readBytes s] }, ⟨m.byteArrs.length, 0, s.len⟩)

/-- `v, ok := m[k]` on a Go map. -/
def mapGet (m : List (Int × Nat)) (k : Int) : Option Nat :=
  (m.find? (fun e => e.1 == k)).map Prod.snd

/-- `m[k] = v` on a Go map: a binding of `k` is replaced. -/
def mapSet (m : List (Int × Nat)) (k : Int) (v : Nat) : List (Int × Nat) :=
  (k, v) :: m.filter (fun e => !(e.1 == k))

/-! ### storage.go -/

/-- `NewStorage`: an empty map and `nextID = 1`. -/
def NewStorage : Storage := { messages := [], nextID := 1 }

/-- `Storage.Add`.  `msg` is the pointer argument, `now` the string
`time.Now().UTC().Format(time.RFC3339)` evaluates to during the call.  Returns
the new world and the id; `none` is the panic of `msg.ID = ...` on `nil`. -/
def Storage.Add (w : World) (msg : Nat) (now : String) : Option (World × Int) :=
  match w.mem.objs[msg]? with
  | none => none
  | some m =>
    let m1 : Message := { m with ID := w.store.nextID }
    let m2 : Message := { m1 with CreatedAt := now }
    let mem1 : Memory := { w.mem with objs := w.mem.objs.set msg m2 }
    let messages1 := mapSet w.store.messages m2.ID msg
    some ({ mem := mem1, store := { messages := messages1, nextID := w.store.nextID + 1 } },
          m2.ID)

/-- The body of `Storage.Get` once the key is found: builds `msgCopy`. -/
def getCopy (mem : Memory) (msg : Message) : Memory × Nat :=
  let r1 := mem.copyStrs msg.To
  let r2 := r1.1.copyBytes msg.Raw
  let msgCopy : Message :=
    { ID := msg.ID, From := msg.From, To := r1.2, Subject := msg.Subject,
      Body := msg.Body, CreatedAt := msg.CreatedAt, Raw := r2.2 }
  ({ r2.1 with objs := r2.1.objs ++ [msgCopy] }, r2.1.objs.length)

/-- `Storage.Get`.  The result is the new world (the copy is allocated) and
`some p` for `(p, true)`, `none` for `(nil, false)`. -/
def Storage.Get (w : World) (id : Int) : Option (World × Option Nat) :=
  match mapGet w.store.messages id with
  | none => some (w, none)
  | some p =>
    match w.mem.objs[p]? with
    | none => none
    | some msg =>
      let r := getCopy w.mem msg
      some ({ w with mem := r.1 }, some r.2)

/-- One round of the loop of `Storage.List`: `append(result, Message{...})`
for the stored message `msg`.  Returns the memory and the address of the new
element of `result`. -/
def listItem (mem : Memory) (msg : Message) : Memory × Nat :=
  let r1 := mem.copyStrs msg.To
  let item : Message :=
    { ID := msg.ID, From := msg.From, To := r1.2, Subject := msg.Subject,
      Body := msg.Body, CreatedAt := msg.CreatedAt, Raw := Slice.nil }
  ({ r1.1 with objs := r1.1.objs ++ [item] }, r1.1.objs.length)

/-- The loop of `Storage.List` over the map entries in the order `range`
yields them; `result` holds the addresses of the elements appended so far. -/
def listLoop (mem : Memory) (entries : List (Int × Nat)) (result : List Nat) :
    Option (Memory × List Nat) :=
  match entries with
  | [] => some (mem, result)
  | e :: rest =>
    match mem.objs[e.2]? with
    | none => none
    | some msg =>
      let r := listItem mem msg
      listLoop r.1 rest (result ++ [r.2])

/-- `Storage.List`.  Go leaves the iteration order of a map unspecified: `iter`
is the order in which `range` yields the entries during this call, a
permutation of `w.store.messages`.  The result lists the addresses of the
elements of the returned `[]Message`, in order. -/
def Storage.List (w : World) (iter : List (Int × Nat)) : Option (World × List Nat) :=
  match listLoop w.mem iter [] with
  | none => none
  | some r => some ({ w with mem := r.1 }, r.2)

/-- `Storage.Clear`: a new empty map, `nextID = 1`. -/
def Storage.Clear (w : World) : World :=
  { w with store := { messages := [], nextID := 1 } }

/-! ### Callers -/

/-- `n` consecutive `Add` calls, one per `(pointer, timestamp)` pair; returns
the final world and the ids in call order. -/
def addAll (w : World) (args : List (Nat × String)) : Option (World × List Int) :=
  match args with
  | [] => some (w, [])
  | a :: rest =>
    match Storage.Add w a.1 a.2 with
    | none => none
    | some r =>
      match addAll r.1 rest with
      | none => none
      | some r2 => some (r2.1, r.2 :: r2.2)

/-- The ids `start, start+1, ..., start+n-1`. -/
def idsFrom (start : Int) (n : Nat) : List Int :=
  (List.range n).map (fun (i : Nat) => start + Int.ofNat i)

/-! ### Well-formed memory -/

/-- A `[]string` header refers to elements that exist (or is empty). -/
def Memory.okStrs (m : Memory) (s : Slice) : Prop :=
  s.len = 0 ∨ (s.arr < m.strArrs.length ∧ s.off + s.len ≤ (m.strArrs.getD s.arr []).length)

/-- A `[]byte` header refers to elements that exist (or is empty). -/
def Memory.okBytes (m : Memory) (s : Slice) : Prop :=
  s.len = 0 ∨ (s.arr < m.byteArrs.length ∧ s.off + s.len ≤ (m.byteArrs.getD s.arr []).length)

instance (m : Memory) (s : Slice) : Decidable (m.okStrs s) := by
  unfold Memory.okStrs; infer_instance

instance (m : Memory) (s : Slice) : Decidable (m.okBytes s) := by
  unfold Memory.okBytes; infer_instance

/-- No slice of a message dangles. -/
def Memory.WF (m : Memory) : Prop :=
  ∀ x ∈ m.objs, m.okStrs x.To ∧ m.okBytes x.Raw

instance (m : Memory) : Decidable m.WF := by
  unfold Memory.WF; infer_instance

/-- What a caller reads through a `*Message`: the fields, with the slices
resolved to their elements. -/
structure Value where
  ID : Int
  From : String
  To : List String
  Subject : String
  Body : String
  CreatedAt : String
  Raw : List Byte
deriving DecidableEq, Repr

/-- The value of a message struct in a memory. -/
def Memory.valueOf (m : Memory) (x : Message) : Value :=
  { ID := x.ID, From := x.From, To := m.readStrs x.To, Subject := x.Subject,
    Body := x.Body, CreatedAt := x.CreatedAt, Raw := m.readBytes x.Raw }

/-- The value behind a pointer; `none` for `nil`. -/
def Memory.value (m : Memory) (p : Nat) : Option Value :=
  (m.objs[p]?).map m.valueOf

/-- A value without its raw bytes: what an element of the result of `List()`
can carry. -/
def Value.noRaw (v : Value) : Value := { v with Raw := [] }

/-! ### Traces of calls -/

/-- What the callers of the package do in a trace: they allocate arrays and
messages and call the four methods of the store.  A trace has no assignment by
a caller to memory that exists; `Memory.edit` below models those. -/
inductive Op where
  | newStrs (xs : List String)
  | newBytes (bs : List Byte)
  | newMsg (m : Message)
  | add (msg : Nat) (now : String)
  | get (id : Int)
  | list (iter : List (Int × Nat))
  | clear
deriving DecidableEq, Repr

/-- What a step hands back to the caller. -/
inductive Ret where
  | addr (p : Nat)
  | id (i : Int)
  | got (r : Option Nat)
  | listed (ps : List Nat)
  | cleared
deriving DecidableEq, Repr

/-- One step.  `newStrs xs` is a `[]string{...}` literal, `newBytes bs` a
`[]byte(...)`, `newMsg m` a `&Message{...}` whose slice fields refer to arrays
that exist; `list iter` is a `List()` call during which the map is enumerated
in the order `iter`.  `none`: the step panics, or is no Go execution. -/
def step (w : World) (op : Op) : Option (World × Ret) :=
  match op with
  | .newStrs xs =>
    some ({ w with mem := { w.mem with strArrs := w.mem.strArrs ++ [xs] } },
          .addr w.mem.strArrs.length)
  | .newBytes bs =>
    some ({ w with mem := { w.mem with byteArrs := w.mem.byteArrs ++ [bs] } },
          .addr w.mem.byteArrs.length)
  | .newMsg m =>
    if w.mem.okStrs m.To ∧ w.mem.okBytes m.Raw then
      some ({ w with mem := { w.mem with objs := w.mem.objs ++ [m] } }, .addr w.mem.objs.length)
    else none
  | .add msg now =>
    match Storage.Add w msg now with
    | none => none
    | some r => some (r.1, .id r.2)
  | .get id =>
    match Storage.Get w id with
    | none => none
    | some r => some (r.1, .got r.2)
  | .list iter =>
    if iter.Perm w.store.messages then
      match Storage.List w iter with
      | none => none
      | some r => some (r.1, .listed r.2)
    else none
  | .clear => some (Storage.Clear w, .cleared)

/-- A sequence of steps; returns the final world and what each step returned. -/
def run (w : World) (ops : List Op) : Option (World × List Ret) :=
  match ops with
  | [] => some (w, [])
  | op :: rest =>
    match step w op with
    | none => none
    | some r =>
      match run r.1 rest with
      | none => none
      | some r2 => some (r2.1, r.2 :: r2.2)

/-- The process at start: nothing allocated, the store as `NewStorage` makes it. -/
def World.init : World := { mem := { objs := [], strArrs := [], byteArrs := [] }, store := NewStorage }

/-- How one returned value changes the list of ids issued since the last
`Clear`: an `Add` appends its id, a `Clear` empties the list. -/
def issuedStep (acc : List Int) (r : Ret) : List Int :=
  match r with
  | .id i => acc ++ [i]
  | .cleared => []
  | _ => acc

/-- The ids returned by `Add` in a trace after its most recent `Clear` (after
the start when there is none), in call order. -/
def issued (rets : List Ret) : List Int := rets.foldl issuedStep []

/-- How one call changes the number of `Add` calls since the last `Clear`. -/
def addsStep (n : Nat) (op : Op) : Nat :=
  match op with
  | .add _ _ => n + 1
  | .clear => 0
  | _ => n

/-- The number of `Add` calls of a trace after its most recent `Clear`. -/
def addsSinceClear (ops : List Op) : Nat := ops.foldl addsStep 0

/-- A trace without `Clear`. -/
def noClear (ops : List Op) : Prop := Op.clear ∉ ops

instance (ops : List Op) : Decidable (noClear ops) := by
  unfold noClear; infer_instance

/-- How one call changes the list of pointers handed to `Add` since the last
`Clear`. -/
def addedStep (acc : List Nat) (op : Op) : List Nat :=
  match op with
  | .add p _ => acc ++ [p]
  | .clear => []
  | _ => acc

/-- The pointers handed to `Add` in a trace after its most recent `Clear`, in
call order. -/
def addedSinceClear (ops : List Op) : List Nat := ops.foldl addedStep []

/-- The pointers handed to `Add` anywhere in a trace. -/
def addedPtrs (ops : List Op) : List Nat :=
  ops.filterMap (fun op => match op with | .add p _ => some p | _ => none)

/-- The ids returned by `Add` anywhere in a trace. -/
def everIssued (rets : List Ret) : List Int :=
  rets.filterMap (fun r => match r with | .id i => some i | _ => none)

/-! ### api.go

`handleEmail` and `handleRawEmail` read the identifier with
`fmt.Sscanf(idStr, "%d", &id)`.  `Sscanf` belongs to the Go standard library; the
definitions below follow `fmt/scan.go` (`doScanf`, `SkipSpace`, `scanInt`,
`scanNumber`) and `strconv/atoi.go` (`ParseInt`, `ParseUint`) for the format
`"%d"` and a `*int` operand on a platform where `int` has 64 bits.  The
identifier is a `String`, read rune by rune. -/

/-- The function `isSpace` of package `fmt`: the runes of its table `space`. -/
def isSpace (r : Char) : Bool :=
  let n := r.toNat
  (0x0009 ≤ n && n ≤ 0x000d) || n == 0x0020 || n == 0x0085 || n == 0x00a0 || n == 0x1680 ||
    (0x2000 ≤ n && n ≤ 0x200a) || n == 0x2028 || n == 0x2029 || n == 0x202f || n == 0x205f ||
    n == 0x3000

/-- `ss.SkipSpace` as `Sscanf` runs it (`nlIsSpace` is false): white space is
skipped, a newline is the error "unexpected newline" (`none`).  Returns the
input that is left. -/
def skipSpace (input : List Char) : Option (List Char) :=
  match input with
  | [] => some []
  | r :: rest =>
    if r.toNat = 13 ∧ rest.head?.map Char.toNat = some 10 then skipSpace rest
    else if r.toNat = 10 then none
    else if isSpace r then skipSpace rest
    else some (r :: rest)

/-- A rune of the string `"0123456789_"`, the digits `getBase` gives for `%d`. -/
def isDigitOrUnderscore (r : Char) : Bool :=
  (48 ≤ r.toNat && r.toNat ≤ 57) || r.toNat == 95

/-- `strconv.ParseUint(s, 10, 64)` without the range check: `none` is the
syntax error (an empty string, a byte that is not a decimal digit). -/
def parseUint (s : List Char) : Option Nat :=
  if s = [] then none
  else if s.all (fun c => 48 ≤ c.toNat && c.toNat ≤ 57) then
    some (s.foldl (fun n c => 10 * n + (c.toNat - 48)) 0)
  else none

/-- `strconv.ParseInt(s, 10, 64)`: `none` when it returns an error (syntax or
range). -/
def parseInt (s : List Char) : Option Int :=
  match s with
  | [] => none
  | c :: rest =>
    let neg : Bool := c.toNat == 45
    let digits := if c.toNat = 43 ∨ c.toNat = 45 then rest else c :: rest
    match parseUint digits with
    | none => none
    | some un =>
      if !neg && 2 ^ 63 ≤ un then none
      else if neg && 2 ^ 63 < un then none
      else some (if neg then -(un : Int) else (un : Int))

/-- `fmt.Sscanf(idStr, "%d", &id)`: `some id` when `err == nil`, `none` when
`err != nil`.  White space is skipped, an optional sign and then the longest run
of digits and underscores are read and handed to `ParseInt`; what follows in
`idStr` is not looked at. -/
def sscanfInt (idStr : String) : Option Int :=
  match skipSpace idStr.data with
  | none => none
  | some [] => none
  | some (c :: rest) =>
    let signed : Bool := c.toNat == 43 || c.toNat == 45
    let sign := if signed then [c] else []
    let rest1 := if signed then rest else c :: rest
    match rest1 with
    | [] => none
    | d :: _ =>
      if isDigitOrUnderscore d then parseInt (sign ++ rest1.takeWhile isDigitOrUnderscore)
      else none

/-- What a handler writes to the `http.ResponseWriter`. -/
inductive Response where
  | error (status : Nat) (text : String)
  | json (msg : Value)
  | plain (body : List Byte)
deriving DecidableEq, Repr

/-- What a handler did: the world after it, the response, and the arguments
of its calls of `Storage.Get`, in order. -/
structure Handled where
  world : World
  response : Response
  getCalls : List Int
deriving DecidableEq, Repr

/-- `Server.handleEmail` for a request with method `method` and path value
`idStr`.  The JSON body is the encoding of the message `Get` returned (`Raw` has
the tag `json:"-"` and is not encoded).  `none`: `Get` panics. -/
def handleEmail (w : World) (method : String) (idStr : String) : Option Handled :=
  if method ≠ "GET" then some ⟨w, .error 405 "Method not allowed", []⟩
  else
    match sscanfInt idStr with
    | none => some ⟨w, .error 400 "Invalid ID", []⟩
    | some id =>
      match Storage.Get w id with
      | none => none
      | some (w1, none) => some ⟨w1, .error 404 "Message not found", [id]⟩
      | some (w1, some q) =>
        match w1.mem.value q with
        | none => none
        | some v => some ⟨w1, .json v.noRaw, [id]⟩

/-- `Server.handleRawEmail` for a request with method `method` and path value
`idStr`.  `none`: `Get` panics. -/
def handleRawEmail (w : World) (method : String) (idStr : String) : Option Handled :=
  if method ≠ "GET" then some ⟨w, .error 405 "Method not allowed", []⟩
  else
    match sscanfInt idStr with
    | none => some ⟨w, .error 400 "Invalid ID", []⟩
    | some id =>
      match Storage.Get w id with
      | none => none
      | some (w1, none) => some ⟨w1, .error 404 "Message not found", [id]⟩
      | some (w1, some q) =>
        match w1.mem.value q with
        | none => none
        | some v => some ⟨w1, .plain v.Raw, [id]⟩

/-! ### server.go

The session of package `commonssmtp`.  `session.to` grows by
`append(s.to, to)`, so its capacity matters: `session` keeps the header of the
slice in `to_` and its capacity in `toCap`.  A backing array of `Memory.strArrs`
that `append` allocates has as many elements as its capacity.  `string(raw)` is
a conversion of the language: it is the argument `str` of `msgFromRaw`. -/

/-- The struct `session` of `server.go`, without its pointer to the store (the
store of the world).  The fields `from` and `to` of the source are `from_` and
`to_`: both words are reserved. -/
structure session where
  from_ : String
  to_ : Slice
  toCap : Nat
deriving DecidableEq, Repr

/-- `backend.NewSession`: `&session{storage: b.store}`. -/
def NewSession : session := { from_ := "", to_ := Slice.nil, toCap := 0 }

/-- `append(s, v)` for a `[]string` with header `s` and capacity `cap`.  With
room left the element is written behind the last one, in the same array.
Without, a new array is allocated with the elements of `s`, then `v`, then
empty strings up to its capacity; `grow` is the capacity the runtime chooses
for it, taken as at least `len(s) + 1`.  Returns the memory, the header and the
capacity of the result. -/
def Memory.appendStr (m : Memory) (s : Slice) (cap : Nat) (v : String) (grow : Nat) :
    Memory × Slice × Nat :=
  if s.len < cap then
    let a := (m.strArrs.getD s.arr []).set (s.off + s.len) v
    ({ m with strArrs := m.strArrs.set s.arr a }, { s with len := s.len + 1 }, cap)
  else
    let newCap := max grow (s.len + 1)
    let a := m.readStrs s ++ [v] ++ List.replicate (newCap - (s.len + 1)) ""
    ({ m with strArrs := m.strArrs ++ [a] }, ⟨m.strArrs.length, 0, s.len + 1⟩, newCap)

/-- `session.Mail`: `s.from = from; s.to = nil` (it returns `nil`). -/
def session.Mail (s : session) (sender : String) : session :=
  { s with from_ := sender, to_ := Slice.nil, toCap := 0 }

/-- `session.Rcpt`: `s.to = append(s.to, to)` (it returns `nil`). -/
def session.Rcpt (m : Memory) (s : session) (rcpt : String) (grow : Nat) : Memory × session :=
  let r := m.appendStr s.to_ s.toCap rcpt grow
  (r.1, { s with to_ := r.2.1, toCap := r.2.2 })

/-- `msgFromRaw`: `&Message{From: s1, To: s2, Body: string(raw), Raw: raw}`; the
other fields have their zero values.  Returns the memory and the pointer. -/
def msgFromRaw (str : List Byte → String) (m : Memory) (s1 : String) (s2 : Slice)
    (raw : Slice) : Memory × Nat :=
  let msg : Message :=
    { ID := 0, From := s1, To := s2, Subject := "", Body := str (m.readBytes raw),
      CreatedAt := "", Raw := raw }
  ({ m with objs := m.objs ++ [msg] }, m.objs.length)

/-- What `io.ReadAll(r)` returns: the bytes read, or an error. -/
inductive ReadResult where
  | ok (raw : List Byte)
  | error (err : String)
deriving DecidableEq, Repr

/-- What a call of `session.Data` did: the world after it, the error it returned
(`none` for `nil`), and for each call of `Storage.Add` the pointer handed in and
the value of the message behind it at the call. -/
structure DataResult where
  world : World
  err : Option String
  addCalls : List (Nat × Value)
deriving DecidableEq, Repr

/-- `session.Data`.  `read` is what `io.ReadAll(r)` returns; on success the
bytes are in a new array.  `now` is the time `Add` reads.  `none`: `Add`
panics. -/
def session.Data (str : List Byte → String) (w : World) (s : session) (read : ReadResult)
    (now : String) : Option DataResult :=
  match read with
  | .error err => some ⟨w, some err, []⟩
  | .ok payload =>
    let m1 : Memory := { w.mem with byteArrs := w.mem.byteArrs ++ [payload] }
    let raw : Slice := ⟨w.mem.byteArrs.length, 0, payload.length⟩
    let r := msgFromRaw str m1 s.from_ s.to_ raw
    match r.1.value r.2 with
    | none => none
    | some v =>
      match Storage.Add ⟨r.1, w.store⟩ r.2 now with
      | none => none
      | some a => some ⟨a.1, none, [(r.2, v)]⟩

/-- `session.Reset`: nothing. -/
def session.Reset (s : session) : session := s

/-- `session.Logout`: nothing (it returns `nil`). -/
def session.Logout (s : session) : session := s

/-- The calls the SMTP library makes on a session. -/
inductive Cmd where
  | mail (sender : String)
  | rcpt (rcpt : String) (grow : Nat)
  | data (read : ReadResult) (now : String)
  | reset
  | logout
deriving DecidableEq, Repr

/-- What happens while a session lives: a call on the session, or a step of
someone else on the store and the memory. -/
inductive Event where
  | cmd (c : Cmd)
  | other (op : Op)
deriving DecidableEq, Repr

/-- One event.  `none`: a panic, or no Go execution. -/
def Event.apply (str : List Byte → String) (w : World) (s : session) (e : Event) :
    Option (World × session) :=
  match e with
  | .cmd (.mail sender) => some (w, s.Mail sender)
  | .cmd (.rcpt rcpt grow) =>
    let r := session.Rcpt w.mem s rcpt grow
    some ({ w with mem := r.1 }, r.2)
  | .cmd (.data read now) =>
    match session.Data str w s read now with
    | none => none
    | some r => some (r.world, s)
  | .cmd .reset => some (w, s.Reset)
  | .cmd .logout => some (w, s.Logout)
  | .other op =>
    match step w op with
    | none => none
    | some r => some (r.1, s)

/-- A sequence of events. -/
def runEvents (str : List Byte → String) (w : World) (s : session) (evs : List Event) :
    Option (World × session) :=
  match evs with
  | [] => some (w, s)
  | e :: rest =>
    match e.apply str w s with
    | none => none
    | some r => runEvents str r.1 r.2 rest

/-- An event that is a `Rcpt` of the session or a step of someone else. -/
def Event.isRcptOrOther (e : Event) : Bool :=
  match e with
  | .cmd (.rcpt _ _) => true
  | .other _ => true
  | _ => false

/-- The recipients of the `Rcpt` calls of a sequence of events, in call order. -/
def rcptsOf (evs : List Event) : List String :=
  evs.filterMap (fun e => match e with | .cmd (.rcpt r _) => some r | _ => none)

/-- A conversion from bytes to `String` for the examples: one character per
byte, the character with that code. -/
def byteChars (bs : List Byte) : String := String.mk (bs.map (fun b => Char.ofNat b.val))

/-- The slice of a session refers to elements that exist, its capacity too. -/
def Memory.okSession (m : Memory) (s : session) : Prop :=
  (s.to_.len = 0 ∧ s.toCap = 0) ∨
    (s.to_.len ≤ s.toCap ∧ s.to_.arr < m.strArrs.length ∧
      s.to_.off + s.toCap ≤ (m.strArrs.getD s.to_.arr []).length)

/-! ### What a caller does to a message it got back -/

/-- An assignment through a `*Message` (or to an element `list[i]` of a
`[]Message`): to a field, to an element of `To`, to a byte of `Raw`. -/
inductive Edit where
  | setID (v : Int)
  | setFrom (v : String)
  | setSubject (v : String)
  | setBody (v : String)
  | setCreatedAt (v : String)
  | setTo (i : Nat) (v : String)
  | setRaw (i : Nat) (b : Byte)
deriving DecidableEq, Repr

/-- The assignment `e` through the pointer `q`: `q.Subject = v`, `q.To[i] = v`,
`q.Raw[i] = b`, and so on.  `none` is the panic on a `nil` pointer or on an
index out of range. -/
def Memory.edit (m : Memory) (q : Nat) (e : Edit) : Option Memory :=
  match m.objs[q]? with
  | none => none
  | some c =>
    match e with
    | .setID v => some { m with objs := m.objs.set q { c with ID := v } }
    | .setFrom v => some { m with objs := m.objs.set q { c with From := v } }
    | .setSubject v => some { m with objs := m.objs.set q { c with Subject := v } }
    | .setBody v => some { m with objs := m.objs.set q { c with Body := v } }
    | .setCreatedAt v => some { m with objs := m.objs.set q { c with CreatedAt := v } }
    | .setTo i v =>
      if i < c.To.len then
        let a := (m.strArrs.getD c.To.arr []).set (c.To.off + i) v
        some { m with strArrs := m.strArrs.set c.To.arr a }
      else none
    | .setRaw i b =>
      if i < c.Raw.len then
        let a := (m.byteArrs.getD c.Raw.arr []).set (c.Raw.off + i) b
        some { m with byteArrs := m.byteArrs.set c.Raw.arr a }
      else none

/-- A sequence of assignments, each through the pointer it is paired with. -/
def Memory.editAll (m : Memory) (es : List (Nat × Edit)) : Option Memory :=
  match es with
  | [] => some m
  | e :: rest =>
    match m.edit e.1 e.2 with
    | none => none
    | some m1 => m1.editAll rest

/-- The messages at the addresses `qs` of `m` are not in `m0`, and neither are
the arrays their slices refer to. -/
def Memory.Fresh (m0 m : Memory) (qs : List Nat) : Prop :=
  ∀ q ∈ qs, m0.objs.length ≤ q ∧ ∃ c, m.objs[q]? = some c ∧
    (c.To.len = 0 ∨ m0.strArrs.length ≤ c.To.arr) ∧
    (c.Raw.len = 0 ∨ m0.byteArrs.length ≤ c.Raw.arr)

/-! ### A concrete trace, after `TestStorage_Get` -/

/-- A caller builds the message of `TestStorage_Get` (two recipients, the raw
bytes of `"raw"`) and hands it to `Add`. -/
def testOps : List Op :=
  [.newStrs ["recipient@example.com", "another@example.com"], .newBytes [114, 97, 119],
   .newMsg ⟨0, "sender@example.com", ⟨0, 0, 2⟩, "Test Subject", "Test Body", "", ⟨0, 0, 3⟩⟩,
   .add 0 "2024-05-01T10:00:00Z"]

/-- The world `testOps` leads to. -/
def testWorld : World :=
  { mem := { objs := [⟨1, "sender@example.com", ⟨0, 0, 2⟩, "Test Subject", "Test Body",
                       "2024-05-01T10:00:00Z", ⟨0, 0, 3⟩⟩],
             strArrs := [["recipient@example.com", "another@example.com"]],
             byteArrs := [[114, 97, 119]] },
    store := { messages := [(1, 0)], nextID := 2 } }

/-- The value of the message `testOps` stores, as `Get(1)` returns it. -/
def testValue : Value :=
  ⟨1, "sender@example.com", ["recipient@example.com", "another@example.com"], "Test Subject",
   "Test Body", "2024-05-01T10:00:00Z", [114, 97, 119]⟩

/-! ### Relations between memories -/

/-- The arrays of `m` are still there, unchanged, in `m1`. -/
def Memory.ArrLe (m m1 : Memory) : Prop :=
  m.strArrs <+: m1.strArrs ∧ m.byteArrs <+: m1.byteArrs

/-- Everything of `m` is still there, unchanged, in `m1`. -/
def Memory.Le (m m1 : Memory) : Prop :=
  m.objs <+: m1.objs ∧ m.ArrLe m1

/-- Two message structs that differ at most in `ID` and `CreatedAt`. -/
def Message.SameContent (x y : Message) : Prop :=
  y.From = x.From ∧ y.To = x.To ∧ y.Subject = x.Subject ∧ y.Body = x.Body ∧ y.Raw = x.Raw

/-- The arrays of `m` are unchanged in `m1`, and every message of `m` is still
at its address in `m1`, with at most `ID` and `CreatedAt` rewritten. -/
def Memory.Ext (m m1 : Memory) : Prop :=
  m.ArrLe m1 ∧ ∀ (p : Nat) (x : Message), m.objs[p]? = some x → ∃ y, m1.objs[p]? = some y ∧ x.SameContent y

/-- The counter as a number of messages: `nextID - 1`. -/
def World.count (w : World) : Nat := (w.store.nextID - 1).toNat

/-- Invariant of the store: the memory is well formed, every stored pointer is
a message, and the keys of the map are `1, ..., nextID - 1`. -/
def World.Inv (w : World) : Prop :=
  w.mem.WF ∧ (∀ e ∈ w.store.messages, e.2 < w.mem.objs.length) ∧
  1 ≤ w.store.nextID ∧ (w.store.messages.map Prod.fst).Perm (idsFrom 1 w.count)

/-- Every key of the map is the `ID` of the message it is bound to. -/
def World.KeysAreIDs (w : World) : Prop :=
  ∀ e ∈ w.store.messages, ∃ x, w.mem.objs[e.2]? = some x ∧ x.ID = e.1

/-! ## Lemmas -/

theorem getD_of_initial {α : Type} (l l1 : List α) (d : α) (i : Nat) (h : l <+: l1)
    (hi : i < l.length) : l1.getD i d = l.getD i d := by
  obtain ⟨t, rfl⟩ := h
  simp [List.getD_eq_getElem?_getD, List.getElem?_append_left hi]

theorem getElem?_of_initial {α : Type} (l l1 : List α) (i : Nat) (h : l <+: l1)
    (hi : i < l.length) : l1[i]? = l[i]? := by
  obtain ⟨t, rfl⟩ := h
  exact List.getElem?_append_left hi

theorem readStrs_of_le (m m1 : Memory) (s : Slice) (h : m.strArrs <+: m1.strArrs)
    (hs : m.okStrs s) : m1.readStrs s = m.readStrs s := by
  unfold Memory.readStrs
  rcases hs with h0 | ⟨h1, _⟩
  · simp [h0]
  · rw [getD_of_initial _ _ _ _ h h1]

theorem readBytes_of_le (m m1 : Memory) (s : Slice) (h : m.byteArrs <+: m1.byteArrs)
    (hs : m.okBytes s) : m1.readBytes s = m.readBytes s := by
  unfold Memory.readBytes
  rcases hs with h0 | ⟨h1, _⟩
  · simp [h0]
  · rw [getD_of_initial _ _ _ _ h h1]

theorem okStrs_of_le (m m1 : Memory) (s : Slice) (h : m.strArrs <+: m1.strArrs)
    (hs : m.okStrs s) : m1.okStrs s := by
  rcases hs with h0 | ⟨h1, h2⟩
  · exact Or.inl h0
  · refine Or.inr ⟨lt_of_lt_of_le h1 h.length_le, ?_⟩
    rw [getD_of_initial _ _ _ _ h h1]; exact h2

theorem okBytes_of_le (m m1 : Memory) (s : Slice) (h : m.byteArrs <+: m1.byteArrs)
    (hs : m.okBytes s) : m1.okBytes s := by
  rcases hs with h0 | ⟨h1, h2⟩
  · exact Or.inl h0
  · refine Or.inr ⟨lt_of_lt_of_le h1 h.length_le, ?_⟩
    rw [getD_of_initial _ _ _ _ h h1]; exact h2

theorem readStrs_length (m : Memory) (s : Slice) (hs : m.okStrs s) :
    (m.readStrs s).length = s.len := by
  unfold Memory.readStrs
  rcases hs with h0 | ⟨_, h2⟩
  · simp [h0]
  · rw [List.getD_eq_getElem?_getD] at h2
    simp; omega

theorem readBytes_length (m : Memory) (s : Slice) (hs : m.okBytes s) :
    (m.readBytes s).length = s.len := by
  unfold Memory.readBytes
  rcases hs with h0 | ⟨_, h2⟩
  · simp [h0]
  · rw [List.getD_eq_getElem?_getD] at h2
    simp; omega

/-- What `append([]string(nil), s...)` does to the memory and what it returns. -/
theorem copyStrs_spec (m : Memory) (s : Slice) (hs : m.okStrs s) :
    (m.copyStrs s).1.objs = m.objs ∧ (m.copyStrs s).1.byteArrs = m.byteArrs ∧
    m.strArrs <+: (m.copyStrs s).1.strArrs ∧
    (m.copyStrs s).1.okStrs (m.copyStrs s).2 ∧
    (m.copyStrs s).1.readStrs (m.copyStrs s).2 = m.readStrs s ∧
    ((m.copyStrs s).2.len = 0 ∨ m.strArrs.length ≤ (m.copyStrs s).2.arr) := by
  unfold Memory.copyStrs
  by_cases h0 : s.len = 0
  · rw [if_pos h0]
    refine ⟨rfl, rfl, List.prefix_refl _, Or.inl rfl, ?_, Or.inl rfl⟩
    simp [Memory.readStrs, Slice.nil, h0]
  · rw [if_neg h0]
    have hl := readStrs_length m s hs
    refine ⟨rfl, rfl, List.prefix_append _ _, Or.inr ⟨by simp, ?_⟩, ?_, Or.inr (le_refl _)⟩
    · simp [List.getD_eq_getElem?_getD, hl]
    · simp [Memory.readStrs, List.getD_eq_getElem?_getD] at hl ⊢

theorem copyBytes_spec (m : Memory) (s : Slice) (hs : m.okBytes s) :
    (m.copyBytes s).1.objs = m.objs ∧ (m.copyBytes s).1.strArrs = m.strArrs ∧
    m.byteArrs <+: (m.copyBytes s).1.byteArrs ∧
    (m.copyBytes s).1.okBytes (m.copyBytes s).2 ∧
    (m.copyBytes s).1.readBytes (m.copyBytes s).2 = m.readBytes s ∧
    ((m.copyBytes s).2.len = 0 ∨ m.byteArrs.length ≤ (m.copyBytes s).2.arr) := by
  unfold Memory.copyBytes
  by_cases h0 : s.len = 0
  · rw [if_pos h0]
    refine ⟨rfl, rfl, List.prefix_refl _, Or.inl rfl, ?_, Or.inl rfl⟩
    simp [Memory.readBytes, Slice.nil, h0]
  · rw [if_neg h0]
    have hl := readBytes_length m s hs
    refine ⟨rfl, rfl, List.prefix_append _ _, Or.inr ⟨by simp, ?_⟩, ?_, Or.inr (le_refl _)⟩
    · simp [List.getD_eq_getElem?_getD, hl]
    · simp [Memory.readBytes, List.getD_eq_getElem?_getD] at hl ⊢

theorem idsFrom_succ (s : Int) (n : Nat) : idsFrom s (n + 1) = s :: idsFrom (s + 1) n := by
  unfold idsFrom
  rw [List.range_succ_eq_map]
  simp only [List.map_cons, List.map_map, Function.comp_def, Int.ofNat_eq_coe, Nat.cast_zero,
    add_zero, List.cons.injEq, true_and]
  apply List.map_congr_left
  intro a _
  simp only [Nat.succ_eq_add_one, Nat.cast_add, Nat.cast_one]
  omega

theorem idsFrom_snoc (s : Int) (n : Nat) : idsFrom s (n + 1) = idsFrom s n ++ [s + (n : Int)] := by
  unfold idsFrom
  rw [List.range_succ]
  simp

theorem mem_idsFrom (s : Int) (n : Nat) (k : Int) : k ∈ idsFrom s n ↔ s ≤ k ∧ k < s + (n : Int) := by
  unfold idsFrom
  simp only [List.mem_map, List.mem_range, Int.ofNat_eq_coe]
  constructor
  · rintro ⟨i, hi, rfl⟩; omega
  · rintro ⟨h1, h2⟩
    refine ⟨(k - s).toNat, ?_, ?_⟩ <;> omega

theorem idsFrom_length (s : Int) (n : Nat) : (idsFrom s n).length = n := by
  simp [idsFrom]

theorem idsFrom_nodup (s : Int) (n : Nat) : (idsFrom s n).Nodup := by
  unfold idsFrom
  refine (List.nodup_range n).map ?_
  intro a b h
  simp only [Int.ofNat_eq_coe] at h
  omega

theorem mapGet_isSome (m : List (Int × Nat)) (k : Int) :
    (mapGet m k).isSome ↔ k ∈ m.map Prod.fst := by
  unfold mapGet
  induction m with
  | nil => simp
  | cons e rest ih =>
    by_cases h : e.1 = k
    · rw [List.find?_cons_of_pos _ (by simpa using h)]
      simp [h]
    · have h2 : ¬ k = e.1 := fun hh => h hh.symm
      rw [List.find?_cons_of_neg _ (by simpa using h)]
      simp only [List.map_cons, List.mem_cons, h2, false_or]
      exact ih

theorem mapGet_mem (m : List (Int × Nat)) (k : Int) (v : Nat) (h : mapGet m k = some v) :
    (k, v) ∈ m := by
  unfold mapGet at h
  simp only [Option.map_eq_some', Prod.exists, exists_eq_right] at h
  obtain ⟨a, ha⟩ := h
  have h1 := List.mem_of_find?_eq_some ha
  have h2 := List.find?_some ha
  simp only [beq_iff_eq] at h2
  subst h2
  exact h1

theorem mapGet_mapSet_self (m : List (Int × Nat)) (k : Int) (v : Nat) :
    mapGet (mapSet m k v) k = some v := by
  simp [mapGet, mapSet]

theorem find?_filter_ne (m : List (Int × Nat)) (k j : Int) (h : j ≠ k) :
    (m.filter (fun e => !(e.1 == k))).find? (fun e => e.1 == j) =
      m.find? (fun e => e.1 == j) := by
  induction m with
  | nil => rfl
  | cons e rest ih =>
    by_cases he : e.1 = k
    · have hj : ¬ e.1 = j := fun hh => h (hh.symm.trans he)
      rw [List.filter_cons_of_neg (by simpa using he),
        List.find?_cons_of_neg _ (by simpa using hj)]
      exact ih
    · rw [List.filter_cons_of_pos (by simpa using he)]
      by_cases hj : e.1 = j
      · rw [List.find?_cons_of_pos _ (by simpa using hj),
          List.find?_cons_of_pos _ (by simpa using hj)]
      · rw [List.find?_cons_of_neg _ (by simpa using hj),
          List.find?_cons_of_neg _ (by simpa using hj)]
        exact ih

theorem mapGet_mapSet_ne (m : List (Int × Nat)) (k j : Int) (v : Nat) (h : j ≠ k) :
    mapGet (mapSet m k v) j = mapGet m j := by
  unfold mapGet mapSet
  have hk : ¬ k = j := fun hh => h hh.symm
  rw [List.find?_cons_of_neg _ (by simpa using hk), find?_filter_ne m k j h]

theorem mapSet_keys_of_not_mem (m : List (Int × Nat)) (k : Int) (v : Nat)
    (h : k ∉ m.map Prod.fst) : mapSet m k v = (k, v) :: m := by
  unfold mapSet
  congr 1
  rw [List.filter_eq_self]
  intro e he
  simp only [Bool.not_eq_eq_eq_not, Bool.not_true, beq_eq_false_iff_ne, ne_eq]
  intro hh
  exact h (List.mem_map.2 ⟨e, he, hh⟩)

theorem mem_mapSet (m : List (Int × Nat)) (k : Int) (v : Nat) (e : Int × Nat)
    (h : e ∈ mapSet m k v) : e = (k, v) ∨ e ∈ m := by
  unfold mapSet at h
  rcases List.mem_cons.1 h with h1 | h1
  · exact Or.inl h1
  · exact Or.inr (List.mem_of_mem_filter h1)

theorem ArrLe_refl (m : Memory) : m.ArrLe m := ⟨List.prefix_refl _, List.prefix_refl _⟩

theorem ArrLe_trans {a b c : Memory} (h1 : a.ArrLe b) (h2 : b.ArrLe c) : a.ArrLe c :=
  ⟨h1.1.trans h2.1, h1.2.trans h2.2⟩

theorem Le_refl (m : Memory) : m.Le m := ⟨List.prefix_refl _, ArrLe_refl m⟩

theorem Le_trans {a b c : Memory} (h1 : a.Le b) (h2 : b.Le c) : a.Le c :=
  ⟨h1.1.trans h2.1, ArrLe_trans h1.2 h2.2⟩

theorem SameContent_refl (x : Message) : x.SameContent x := ⟨rfl, rfl, rfl, rfl, rfl⟩

theorem SameContent_trans {x y z : Message} (h1 : x.SameContent y) (h2 : y.SameContent z) :
    x.SameContent z :=
  ⟨h2.1.trans h1.1, h2.2.1.trans h1.2.1, h2.2.2.1.trans h1.2.2.1,
    h2.2.2.2.1.trans h1.2.2.2.1, h2.2.2.2.2.trans h1.2.2.2.2⟩

theorem Ext_refl (m : Memory) : m.Ext m :=
  ⟨ArrLe_refl m, fun _ x hx => ⟨x, hx, SameContent_refl x⟩⟩

theorem Ext_trans {a b c : Memory} (h1 : a.Ext b) (h2 : b.Ext c) : a.Ext c := by
  refine ⟨ArrLe_trans h1.1 h2.1, ?_⟩
  intro p x hx
  obtain ⟨y, hy, hxy⟩ := h1.2 p x hx
  obtain ⟨z, hz, hyz⟩ := h2.2 p y hy
  exact ⟨z, hz, SameContent_trans hxy hyz⟩

theorem Ext_of_le {a b : Memory} (h : a.Le b) : a.Ext b := by
  refine ⟨h.2, ?_⟩
  intro p x hx
  have hp : p < a.objs.length := by
    rcases Nat.lt_or_ge p a.objs.length with h1 | h1
    · exact h1
    · rw [List.getElem?_eq_none h1] at hx; cases hx
  exact ⟨x, by rw [getElem?_of_initial _ _ _ h.1 hp]; exact hx, SameContent_refl x⟩

theorem Ext_length_le {a b : Memory} (h : a.Ext b) : a.objs.length ≤ b.objs.length := by
  by_contra hc
  have hlt : b.objs.length < a.objs.length := Nat.lt_of_not_le hc
  obtain ⟨y, hy, _⟩ := h.2 b.objs.length (a.objs[b.objs.length]) (List.getElem?_eq_getElem hlt)
  rw [List.getElem?_eq_none (le_refl _)] at hy
  cases hy

theorem Le_length_le {a b : Memory} (h : a.Le b) : a.objs.length ≤ b.objs.length :=
  h.1.length_le

/-- A memory stays well formed when arrays are only added and every message
is an old one or has slices that are in order. -/
theorem WF_of_arrLe (m m1 : Memory) (hw : m.WF) (ha : m.ArrLe m1)
    (ho : ∀ y ∈ m1.objs, (∃ x ∈ m.objs, y.To = x.To ∧ y.Raw = x.Raw) ∨
      (m1.okStrs y.To ∧ m1.okBytes y.Raw)) : m1.WF := by
  intro y hy
  rcases ho y hy with ⟨x, hx, h1, h2⟩ | h
  · rw [h1, h2]
    exact ⟨okStrs_of_le m m1 _ ha.1 (hw x hx).1, okBytes_of_le m m1 _ ha.2 (hw x hx).2⟩
  · exact h

theorem valueOf_of_arrLe (m m1 : Memory) (x : Message) (ha : m.ArrLe m1)
    (h1 : m.okStrs x.To) (h2 : m.okBytes x.Raw) : m1.valueOf x = m.valueOf x := by
  unfold Memory.valueOf
  rw [readStrs_of_le m m1 _ ha.1 h1, readBytes_of_le m m1 _ ha.2 h2]

theorem mem_of_getElem? {α : Type} (l : List α) (p : Nat) (x : α) (h : l[p]? = some x) :
    x ∈ l := by
  rw [List.getElem?_eq_some] at h
  obtain ⟨hp, rfl⟩ := h
  exact List.getElem_mem hp

theorem lt_of_getElem? {α : Type} (l : List α) (p : Nat) (x : α) (h : l[p]? = some x) :
    p < l.length := by
  rw [List.getElem?_eq_some] at h
  exact h.1

/-- Old messages read the same in a memory that extends the old one. -/
theorem value_of_le (m m1 : Memory) (p : Nat) (hw : m.WF) (hl : m.Le m1)
    (hp : p < m.objs.length) : m1.value p = m.value p := by
  unfold Memory.value
  rw [getElem?_of_initial _ _ _ hl.1 hp, List.getElem?_eq_getElem hp]
  simp only [Option.map_some', Option.some.injEq]
  have hx := hw _ (List.getElem_mem hp)
  exact valueOf_of_arrLe m m1 _ hl.2 hx.1 hx.2

/-- The equation of `Add` on a pointer that is not `nil`. -/
theorem Add_eq (w : World) (p : Nat) (now : String) (x : Message)
    (hx : w.mem.objs[p]? = some x) :
    Storage.Add w p now = some
      ({ mem := { w.mem with
                  objs := w.mem.objs.set p { x with ID := w.store.nextID, CreatedAt := now } },
         store := { messages := mapSet w.store.messages w.store.nextID p,
                    nextID := w.store.nextID + 1 } }, w.store.nextID) := by
  unfold Storage.Add
  rw [hx]

theorem Add_some (w w1 : World) (p : Nat) (now : String) (id : Int)
    (h : Storage.Add w p now = some (w1, id)) :
    ∃ x, w.mem.objs[p]? = some x ∧ id = w.store.nextID ∧
      w1 = { mem := { w.mem with
                  objs := w.mem.objs.set p { x with ID := w.store.nextID, CreatedAt := now } },
             store := { messages := mapSet w.store.messages w.store.nextID p,
                        nextID := w.store.nextID + 1 } } := by
  cases hx : w.mem.objs[p]? with
  | none => simp [Storage.Add, hx] at h
  | some x =>
    rw [Add_eq w p now x hx] at h
    simp only [Option.some.injEq, Prod.mk.injEq] at h
    exact ⟨x, rfl, h.2.symm, h.1.symm⟩

theorem count_succ (w : World) (h : 1 ≤ w.store.nextID) :
    w.store.nextID = 1 + (w.count : Int) := by
  unfold World.count; omega

theorem Add_inv (w w1 : World) (p : Nat) (now : String) (id : Int) (hi : w.Inv)
    (h : Storage.Add w p now = some (w1, id)) :
    w1.Inv ∧ id = w.store.nextID ∧ w1.store.nextID = w.store.nextID + 1 ∧
      w1.count = w.count + 1 ∧ w.mem.Ext w1.mem ∧
      w1.mem.objs.length = w.mem.objs.length ∧
      mapGet w1.store.messages id = some p ∧
      (∀ j, j ≠ id → mapGet w1.store.messages j = mapGet w.store.messages j) ∧
      w1.mem.value p = (w.mem.value p).map (fun v => { v with ID := id, CreatedAt := now }) := by
  obtain ⟨x, hx, rfl, hw1⟩ := Add_some w w1 p now id h
  obtain ⟨hwf, hptr, hn, hk⟩ := hi
  have hobjs : w1.mem.objs =
      w.mem.objs.set p { x with ID := w.store.nextID, CreatedAt := now } := by rw [hw1]
  have hstrs : w1.mem.strArrs = w.mem.strArrs := by rw [hw1]
  have hbytes : w1.mem.byteArrs = w.mem.byteArrs := by rw [hw1]
  have hmsgs : w1.store.messages = mapSet w.store.messages w.store.nextID p := by rw [hw1]
  have hnext : w1.store.nextID = w.store.nextID + 1 := by rw [hw1]
  clear hw1
  have hp := lt_of_getElem? _ _ _ hx
  have hnot : w.store.nextID ∉ w.store.messages.map Prod.fst := by
    intro hmem
    have := (mem_idsFrom 1 w.count _).1 (hk.mem_iff.1 hmem)
    have := count_succ w hn
    omega
  have hcount : w1.count = w.count + 1 := by
    unfold World.count; rw [hnext]; omega
  have harr : w.mem.ArrLe w1.mem := by
    unfold Memory.ArrLe; rw [hstrs, hbytes]; exact ArrLe_refl _
  refine ⟨⟨?_, ?_, ?_, ?_⟩, rfl, hnext, hcount, ⟨harr, ?_⟩, ?_, ?_, ?_, ?_⟩
  · apply WF_of_arrLe w.mem _ hwf harr
    intro y hy
    rw [hobjs] at hy
    rcases List.mem_or_eq_of_mem_set hy with h1 | h1
    · exact Or.inl ⟨y, h1, rfl, rfl⟩
    · exact Or.inl ⟨x, mem_of_getElem? _ _ _ hx, by rw [h1], by rw [h1]⟩
  · intro e he
    rw [hobjs, List.length_set]
    rw [hmsgs] at he
    rcases mem_mapSet _ _ _ _ he with h1 | h1
    · rw [h1]; exact hp
    · exact hptr e h1
  · rw [hnext]; omega
  · rw [hcount, hmsgs, mapSet_keys_of_not_mem _ _ _ hnot, idsFrom_snoc, List.map_cons]
    rw [← count_succ w hn]
    exact (List.Perm.cons _ hk).trans (List.perm_append_singleton _ _).symm
  · intro q y hy
    rw [hobjs, List.getElem?_set]
    by_cases hq : p = q
    · subst hq
      rw [hx] at hy; cases hy
      simp only [hp, if_true]
      exact ⟨_, rfl, rfl, rfl, rfl, rfl, rfl⟩
    · simp only [hq, if_false]
      exact ⟨y, hy, SameContent_refl y⟩
  · rw [hobjs, List.length_set]
  · rw [hmsgs]; exact mapGet_mapSet_self _ _ _
  · intro j hj
    rw [hmsgs]; exact mapGet_mapSet_ne _ _ _ _ hj
  · simp [Memory.value, hx, hp, hobjs, Memory.valueOf, Memory.readStrs, Memory.readBytes,
      hstrs, hbytes]

/-- What building `msgCopy` in `Get` does: one new message at the end of the
memory, with the value of the original, over arrays of its own. -/
theorem getCopy_spec (m : Memory) (x : Message) (hw : m.WF) (h1 : m.okStrs x.To)
    (h2 : m.okBytes x.Raw) :
    ∃ c, (getCopy m x).1.objs = m.objs ++ [c] ∧ (getCopy m x).2 = m.objs.length ∧
      m.Le (getCopy m x).1 ∧ (getCopy m x).1.WF ∧
      (getCopy m x).1.valueOf c = m.valueOf x ∧
      (c.To.len = 0 ∨ m.strArrs.length ≤ c.To.arr) ∧
      (c.Raw.len = 0 ∨ m.byteArrs.length ≤ c.Raw.arr) := by
  obtain ⟨a1, a2, a3, a4, a5, a6⟩ := copyStrs_spec m x.To h1
  have h2a : (m.copyStrs x.To).1.okBytes x.Raw := by
    unfold Memory.okBytes; rw [a2]; exact h2
  obtain ⟨b1, b2, b3, b4, b5, b6⟩ := copyBytes_spec (m.copyStrs x.To).1 x.Raw h2a
  have harr : m.ArrLe (getCopy m x).1 := by
    refine ⟨?_, ?_⟩
    · show m.strArrs <+: ((m.copyStrs x.To).1.copyBytes x.Raw).1.strArrs
      rw [b2]; exact a3
    · show m.byteArrs <+: ((m.copyStrs x.To).1.copyBytes x.Raw).1.byteArrs
      rw [← a2]; exact b3
  have hobjs : (getCopy m x).1.objs = m.objs ++
      [{ ID := x.ID, From := x.From, To := (m.copyStrs x.To).2, Subject := x.Subject,
         Body := x.Body, CreatedAt := x.CreatedAt,
         Raw := ((m.copyStrs x.To).1.copyBytes x.Raw).2 }] := by
    show ((m.copyStrs x.To).1.copyBytes x.Raw).1.objs ++ _ = _
    rw [b1, a1]
  have hokTo : (getCopy m x).1.okStrs (m.copyStrs x.To).2 := by
    have : (getCopy m x).1.strArrs = (m.copyStrs x.To).1.strArrs := b2
    unfold Memory.okStrs; rw [this]; exact a4
  have hokRaw : (getCopy m x).1.okBytes ((m.copyStrs x.To).1.copyBytes x.Raw).2 := b4
  refine ⟨_, hobjs, ?_, ⟨?_, harr⟩, ?_, ?_, a6, ?_⟩
  · show ((m.copyStrs x.To).1.copyBytes x.Raw).1.objs.length = _
    rw [b1, a1]
  · rw [hobjs]; exact List.prefix_append _ _
  · apply WF_of_arrLe m _ hw harr
    intro y hy
    rw [hobjs] at hy
    rcases List.mem_append.1 hy with h | h
    · exact Or.inl ⟨y, h, rfl, rfl⟩
    · rw [List.mem_singleton] at h
      rw [h]
      exact Or.inr ⟨hokTo, hokRaw⟩
  · have e1 : (getCopy m x).1.readStrs (m.copyStrs x.To).2 = m.readStrs x.To := by
      have : (getCopy m x).1.strArrs = (m.copyStrs x.To).1.strArrs := b2
      unfold Memory.readStrs at a5 ⊢; rw [this]; exact a5
    have e2 : (getCopy m x).1.readBytes ((m.copyStrs x.To).1.copyBytes x.Raw).2 =
        m.readBytes x.Raw := by
      have : (m.copyStrs x.To).1.readBytes x.Raw = m.readBytes x.Raw := by
        unfold Memory.readBytes; rw [a2]
      rw [← this]; exact b5
    unfold Memory.valueOf
    simp only [e1, e2]
  · rcases b6 with h | h
    · exact Or.inl h
    · rw [a2] at h; exact Or.inr h

/-- `Get` on a store that satisfies the invariant: it does not panic, it finds
exactly the keys of the map, and what it returns is a new message with the value
of the stored one. -/
theorem Get_spec (w : World) (id : Int) (hi : w.Inv) :
    (mapGet w.store.messages id = none ∧ Storage.Get w id = some (w, none)) ∨
    (∃ p x w1 c, mapGet w.store.messages id = some p ∧ w.mem.objs[p]? = some x ∧
      Storage.Get w id = some (w1, some w.mem.objs.length) ∧
      w1.store = w.store ∧ w1.mem.objs = w.mem.objs ++ [c] ∧ w.mem.Le w1.mem ∧ w1.Inv ∧
      w1.mem.valueOf c = w.mem.valueOf x ∧
      (c.To.len = 0 ∨ w.mem.strArrs.length ≤ c.To.arr) ∧
      (c.Raw.len = 0 ∨ w.mem.byteArrs.length ≤ c.Raw.arr)) := by
  obtain ⟨hwf, hptr, hn, hk⟩ := hi
  cases hg : mapGet w.store.messages id with
  | none => left; exact ⟨rfl, by simp [Storage.Get, hg]⟩
  | some p =>
    right
    have hp : p < w.mem.objs.length := hptr _ (mapGet_mem _ _ _ hg)
    have hx : w.mem.objs[p]? = some (w.mem.objs[p]) := List.getElem?_eq_getElem hp
    have hok := hwf _ (List.getElem_mem hp)
    obtain ⟨c, c1, c2, c3, c4, c5, c6, c7⟩ := getCopy_spec w.mem _ hwf hok.1 hok.2
    refine ⟨p, _, { w with mem := (getCopy w.mem (w.mem.objs[p])).1 }, c, rfl, hx, ?_, rfl, c1,
      c3, ⟨c4, ?_, hn, hk⟩, c5, c6, c7⟩
    · simp only [Storage.Get, hg, hx]
      rw [c2]
    · intro e he
      exact lt_of_lt_of_le (hptr e he) (Le_length_le c3)

/-- One round of the loop of `List`: the memory after the element is appended. -/
theorem listItem_spec (m : Memory) (x : Message) (hw : m.WF) (h1 : m.okStrs x.To) :
    ∃ c, (listItem m x).2 = m.objs.length ∧
      (listItem m x).1.objs = m.objs ++ [c] ∧ (listItem m x).1.byteArrs = m.byteArrs ∧
      m.Le (listItem m x).1 ∧ (listItem m x).1.WF ∧
      (listItem m x).1.valueOf c = (m.valueOf x).noRaw ∧ c.Raw = Slice.nil ∧
      (c.To.len = 0 ∨ m.strArrs.length ≤ c.To.arr) := by
  obtain ⟨a1, a2, a3, a4, a5, a6⟩ := copyStrs_spec m x.To h1
  have hobjs : (listItem m x).1.objs = m.objs ++
      [Message.mk x.ID x.From (m.copyStrs x.To).2 x.Subject x.Body x.CreatedAt Slice.nil] := by
    show (m.copyStrs x.To).1.objs ++ _ = _
    rw [a1]
  have hstr : (listItem m x).1.strArrs = (m.copyStrs x.To).1.strArrs := rfl
  have hbyte : (listItem m x).1.byteArrs = m.byteArrs := a2
  have harr : m.ArrLe (listItem m x).1 := by
    refine ⟨?_, ?_⟩
    · rw [hstr]; exact a3
    · rw [hbyte]
  refine ⟨_, ?_, hobjs, hbyte, ⟨?_, harr⟩, ?_, ?_, rfl, a6⟩
  · show (m.copyStrs x.To).1.objs.length = _
    rw [a1]
  · rw [hobjs]; exact List.prefix_append _ _
  · apply WF_of_arrLe m _ hw harr
    intro y hy
    rw [hobjs] at hy
    rcases List.mem_append.1 hy with h | h
    · exact Or.inl ⟨y, h, rfl, rfl⟩
    · rw [List.mem_singleton] at h
      rw [h]
      refine Or.inr ⟨?_, Or.inl rfl⟩
      unfold Memory.okStrs; rw [hstr]; exact a4
  · unfold Memory.valueOf Value.noRaw
    simp only [Value.mk.injEq, true_and]
    refine ⟨?_, by simp [Memory.readBytes, Slice.nil]⟩
    unfold Memory.readStrs at a5 ⊢; rw [hstr]; exact a5

/-- The loop of `List` on a well-formed memory and pointers that are messages:
it does not panic; it appends one new message per entry, at consecutive new
addresses; each has the value of the entry's message without the raw bytes, a
`nil` `Raw`, and a `To` over an array of its own. -/
theorem listLoop_spec (entries : List (Int × Nat)) :
    ∀ (m : Memory) (result : List Nat), m.WF → (∀ e ∈ entries, e.2 < m.objs.length) →
    ∃ m1 qs, listLoop m entries result = some (m1, result ++ qs) ∧ m.Le m1 ∧ m1.WF ∧
      m1.byteArrs = m.byteArrs ∧
      qs = List.range' m.objs.length entries.length ∧
      m1.objs.length = m.objs.length + entries.length ∧
      qs.map m1.value = entries.map (fun e => (m.value e.2).map Value.noRaw) ∧
      (∀ q ∈ qs, ∃ c, m1.objs[q]? = some c ∧ c.Raw = Slice.nil ∧
        (c.To.len = 0 ∨ m.strArrs.length ≤ c.To.arr)) := by
  induction entries with
  | nil =>
    intro m result hw _
    exact ⟨m, [], by simp [listLoop], Le_refl m, hw, rfl, rfl, rfl, rfl, by simp⟩
  | cons e rest ih =>
    intro m result hw hptr
    have hp : e.2 < m.objs.length := hptr e (List.mem_cons_self _ _)
    have hx : m.objs[e.2]? = some (m.objs[e.2]) := List.getElem?_eq_getElem hp
    have hok := hw _ (List.getElem_mem hp)
    obtain ⟨c, hlen, c1, c2, c3, c4, c5, c6, c7⟩ := listItem_spec m (m.objs[e.2]) hw hok.1
    generalize hm' : (listItem m (m.objs[e.2])).1 = m' at c1 c2 c3 c4 c5
    have hptr' : ∀ e1 ∈ rest, e1.2 < m'.objs.length := fun e1 he1 =>
      lt_of_lt_of_le (hptr e1 (List.mem_cons_of_mem _ he1)) (Le_length_le c3)
    obtain ⟨m1, qs, d1, d2, d3, d4, d5, d6, d7, d8⟩ := ih m' (result ++ [m.objs.length]) c4 hptr'
    have hq0 : m.objs.length < m'.objs.length := by rw [c1]; simp
    have hc : m'.objs[m.objs.length]? = some c := by
      rw [c1]; simp
    have hlen' : m'.objs.length = m.objs.length + 1 := by rw [c1]; simp
    refine ⟨m1, m.objs.length :: qs, ?_, Le_trans c3 d2, d3, by rw [d4, c2], ?_, ?_, ?_, ?_⟩
    · simp only [listLoop, hx]
      rw [hlen, hm', d1]
      simp
    · rw [d5, hlen']; simp [List.range'_succ]
    · rw [d6, hlen']; simp; omega
    · rw [List.map_cons, List.map_cons, d7]
      congr 1
      · rw [value_of_le m' m1 _ c4 d2 hq0]
        simp only [Memory.value, hc, hx, Option.map_some', c5]
      · apply List.map_congr_left
        intro e1 he1
        rw [value_of_le m m' _ hw c3 (hptr e1 (List.mem_cons_of_mem _ he1))]
    · intro q hq
      rcases List.mem_cons.1 hq with h | h
      · refine ⟨c, ?_, c6, c7⟩
        rw [h, getElem?_of_initial _ _ _ d2.1 hq0]; exact hc
      · obtain ⟨c', e1, e2, e3⟩ := d8 q h
        refine ⟨c', e1, e2, ?_⟩
        rcases e3 with h3 | h3
        · exact Or.inl h3
        · exact Or.inr (le_trans c3.2.1.length_le h3)

/-- `List` on a store that satisfies the invariant. -/
theorem List_spec (w : World) (iter : List (Int × Nat)) (hi : w.Inv)
    (hperm : iter.Perm w.store.messages) :
    ∃ w1 qs, Storage.List w iter = some (w1, qs) ∧ w1.store = w.store ∧ w.mem.Le w1.mem ∧
      w1.Inv ∧ w1.mem.byteArrs = w.mem.byteArrs ∧
      qs = List.range' w.mem.objs.length iter.length ∧
      w1.mem.objs.length = w.mem.objs.length + iter.length ∧
      qs.map w1.mem.value = iter.map (fun e => (w.mem.value e.2).map Value.noRaw) ∧
      (∀ q ∈ qs, ∃ c, w1.mem.objs[q]? = some c ∧ c.Raw = Slice.nil ∧
        (c.To.len = 0 ∨ w.mem.strArrs.length ≤ c.To.arr)) := by
  obtain ⟨hwf, hptr, hn, hk⟩ := hi
  have hptr' : ∀ e ∈ iter, e.2 < w.mem.objs.length := fun e he => hptr e (hperm.mem_iff.1 he)
  obtain ⟨m1, qs, d1, d2, d3, d4, d5, d6, d7, d8⟩ := listLoop_spec iter w.mem [] hwf hptr'
  refine ⟨{ w with mem := m1 }, qs, ?_, rfl, d2, ⟨d3, ?_, hn, hk⟩, d4, d5, d6, d7, d8⟩
  · simp only [Storage.List, d1, List.nil_append]
  · intro e he
    exact lt_of_lt_of_le (hptr e he) (Le_length_le d2)

theorem init_inv : World.init.Inv := by
  refine ⟨?_, ?_, ?_, ?_⟩
  · intro x hx; cases hx
  · intro e he; cases he
  · decide
  · exact List.Perm.refl _

theorem Clear_inv (w : World) (hi : w.Inv) : (Storage.Clear w).Inv := by
  refine ⟨hi.1, ?_, ?_, ?_⟩
  · intro e he; cases he
  · exact le_refl _
  · exact List.Perm.refl _

/-- Every step keeps the invariant and the content of the messages and arrays
there are; the counter follows the `Add` and `Clear` calls, and the keys of the
map below the counter stay bound to the same pointers unless the step is a
`Clear`. -/
theorem step_inv (w w1 : World) (op : Op) (r : Ret) (hi : w.Inv)
    (h : step w op = some (w1, r)) :
    w1.Inv ∧ w.mem.Ext w1.mem ∧
      issuedStep (idsFrom 1 w.count) r = idsFrom 1 w1.count ∧
      addsStep w.count op = w1.count ∧
      (op ≠ Op.clear → ∀ j, j < w.store.nextID →
        mapGet w1.store.messages j = mapGet w.store.messages j) ∧
      (op ≠ Op.clear → w.store.nextID ≤ w1.store.nextID) := by
  obtain ⟨hwf, hptr, hn, hk⟩ := hi
  cases op with
  | newStrs xs =>
    simp only [step, Option.some.injEq, Prod.mk.injEq] at h
    obtain ⟨rfl, rfl⟩ := h
    have hle : w.mem.Le { w.mem with strArrs := w.mem.strArrs ++ [xs] } :=
      ⟨List.prefix_refl _, List.prefix_append _ _, List.prefix_refl _⟩
    refine ⟨⟨?_, hptr, hn, hk⟩, Ext_of_le hle, rfl, rfl, fun _ _ _ => rfl, fun _ => le_refl _⟩
    exact WF_of_arrLe w.mem _ hwf hle.2 (fun y hy => Or.inl ⟨y, hy, rfl, rfl⟩)
  | newBytes bs =>
    simp only [step, Option.some.injEq, Prod.mk.injEq] at h
    obtain ⟨rfl, rfl⟩ := h
    have hle : w.mem.Le { w.mem with byteArrs := w.mem.byteArrs ++ [bs] } :=
      ⟨List.prefix_refl _, List.prefix_refl _, List.prefix_append _ _⟩
    refine ⟨⟨?_, hptr, hn, hk⟩, Ext_of_le hle, rfl, rfl, fun _ _ _ => rfl, fun _ => le_refl _⟩
    exact WF_of_arrLe w.mem _ hwf hle.2 (fun y hy => Or.inl ⟨y, hy, rfl, rfl⟩)
  | newMsg m =>
    simp only [step] at h
    split at h
    · rename_i hok
      simp only [Option.some.injEq, Prod.mk.injEq] at h
      obtain ⟨rfl, rfl⟩ := h
      have hle : w.mem.Le { w.mem with objs := w.mem.objs ++ [m] } :=
        ⟨List.prefix_append _ _, List.prefix_refl _, List.prefix_refl _⟩
      refine ⟨⟨?_, ?_, hn, hk⟩, Ext_of_le hle, rfl, rfl, fun _ _ _ => rfl, fun _ => le_refl _⟩
      · apply WF_of_arrLe w.mem _ hwf hle.2
        intro y hy
        rcases List.mem_append.1 hy with h1 | h1
        · exact Or.inl ⟨y, h1, rfl, rfl⟩
        · rw [List.mem_singleton] at h1
          rw [h1]; exact Or.inr hok
      · intro e he
        exact lt_of_lt_of_le (hptr e he) (Le_length_le hle)
    · cases h
  | add msg now =>
    simp only [step] at h
    cases ha : Storage.Add w msg now with
    | none => rw [ha] at h; cases h
    | some r1 =>
      rw [ha] at h
      simp only [Option.some.injEq, Prod.mk.injEq] at h
      obtain ⟨rfl, rfl⟩ := h
      obtain ⟨i1, i2, i3, i4, i5, _, _, i8, _⟩ :=
        Add_inv w r1.1 msg now r1.2 ⟨hwf, hptr, hn, hk⟩ ha
      refine ⟨i1, i5, ?_, ?_, ?_, ?_⟩
      · simp only [issuedStep]
        rw [i4, idsFrom_snoc, i2, count_succ w hn]
      · simp only [addsStep]; exact i4.symm
      · intro _ j hj
        exact i8 j (by rw [i2]; omega)
      · intro _; rw [i3]; omega
  | get id =>
    simp only [step] at h
    cases hg : Storage.Get w id with
    | none => rw [hg] at h; cases h
    | some r1 =>
      rw [hg] at h
      simp only [Option.some.injEq, Prod.mk.injEq] at h
      obtain ⟨rfl, rfl⟩ := h
      rcases Get_spec w id ⟨hwf, hptr, hn, hk⟩ with ⟨_, g2⟩ | ⟨p, x, w2, c, _, _, g3, g4, _, g6, g7, _⟩
      · rw [g2] at hg
        simp only [Option.some.injEq] at hg
        subst hg
        exact ⟨⟨hwf, hptr, hn, hk⟩, Ext_refl _, rfl, rfl, fun _ _ _ => rfl, fun _ => le_refl _⟩
      · rw [g3] at hg
        simp only [Option.some.injEq] at hg
        subst hg
        have hc : World.count w2 = w.count := by unfold World.count; rw [g4]
        refine ⟨g7, Ext_of_le g6, ?_, ?_, ?_, ?_⟩
        · simp only [issuedStep]; rw [hc]
        · simp only [addsStep]; exact hc.symm
        · intro _ j _; simp only; rw [g4]
        · intro _; simp only; rw [g4]
  | list iter =>
    simp only [step] at h
    split at h
    · rename_i hperm
      obtain ⟨w2, qs, l1, l2, l3, l4, _⟩ := List_spec w iter ⟨hwf, hptr, hn, hk⟩ hperm
      rw [l1] at h
      simp only [Option.some.injEq, Prod.mk.injEq] at h
      obtain ⟨rfl, rfl⟩ := h
      have hc : World.count w2 = w.count := by unfold World.count; rw [l2]
      refine ⟨l4, Ext_of_le l3, ?_, ?_, ?_, ?_⟩
      · simp only [issuedStep]; rw [hc]
      · simp only [addsStep]; exact hc.symm
      · intro _ j _; rw [l2]
      · intro _; rw [l2]
    · cases h
  | clear =>
    simp only [step, Option.some.injEq, Prod.mk.injEq] at h
    obtain ⟨rfl, rfl⟩ := h
    refine ⟨Clear_inv w ⟨hwf, hptr, hn, hk⟩, Ext_refl _, rfl, rfl, fun hc => absurd rfl hc,
      fun hc => absurd rfl hc⟩

/-- The invariant along a trace. -/
theorem run_inv (ops : List Op) :
    ∀ (w w1 : World) (rets : List Ret), w.Inv → run w ops = some (w1, rets) →
      w1.Inv ∧ w.mem.Ext w1.mem ∧
      rets.foldl issuedStep (idsFrom 1 w.count) = idsFrom 1 w1.count ∧
      ops.foldl addsStep w.count = w1.count ∧
      (noClear ops → (∀ j, j < w.store.nextID →
        mapGet w1.store.messages j = mapGet w.store.messages j) ∧
        w.store.nextID ≤ w1.store.nextID) := by
  induction ops with
  | nil =>
    intro w w1 rets hi h
    simp only [run, Option.some.injEq, Prod.mk.injEq] at h
    obtain ⟨rfl, rfl⟩ := h
    exact ⟨hi, Ext_refl _, rfl, rfl, fun _ => ⟨fun _ _ => rfl, le_refl _⟩⟩
  | cons op rest ih =>
    intro w w1 rets hi h
    cases hs : step w op with
    | none => simp [run, hs] at h
    | some r =>
      cases hr : run r.1 rest with
      | none => simp [run, hs, hr] at h
      | some r2 =>
        simp only [run, hs, hr, Option.some.injEq, Prod.mk.injEq] at h
        obtain ⟨rfl, rfl⟩ := h
        obtain ⟨s1, s2, s3, s4, s5, s6⟩ := step_inv w r.1 op r.2 hi hs
        obtain ⟨t1, t2, t3, t4, t5⟩ := ih r.1 r2.1 r2.2 s1 hr
        refine ⟨t1, Ext_trans s2 t2, ?_, ?_, ?_⟩
        · rw [List.foldl_cons, s3, t3]
        · rw [List.foldl_cons, s4, t4]
        · intro hnc
          have h1 : op ≠ Op.clear := fun hh => hnc (by rw [hh]; exact List.mem_cons_self _ _)
          have h2 : noClear rest := fun hh => hnc (List.mem_cons_of_mem _ hh)
          obtain ⟨t5a, t5b⟩ := t5 h2
          refine ⟨?_, le_trans (s6 h1) t5b⟩
          intro j hj
          rw [t5a j (lt_of_lt_of_le hj (s6 h1)), s5 h1 j hj]

/-- A trace from the start: the invariant holds, the ids issued since the last
`Clear` are `1, ..., n` for the `n` calls of `Add` since then, and `n + 1` is the
counter. -/
theorem run_init (ops : List Op) (w : World) (rets : List Ret)
    (h : run World.init ops = some (w, rets)) :
    w.Inv ∧ issued rets = idsFrom 1 w.count ∧ addsSinceClear ops = w.count := by
  obtain ⟨h1, _, h3, h4, _⟩ := run_inv ops World.init w rets init_inv h
  exact ⟨h1, h3, h4⟩

theorem Add_of_lt (w : World) (p : Nat) (now : String) (h : p < w.mem.objs.length) :
    ∃ w1, Storage.Add w p now = some (w1, w.store.nextID) ∧
      w1.store.nextID = w.store.nextID + 1 ∧
      w1.mem.objs.length = w.mem.objs.length := by
  rw [Add_eq w p now _ (List.getElem?_eq_getElem h)]
  exact ⟨_, rfl, rfl, by simp⟩

theorem addAll_ids (args : List (Nat × String)) :
    ∀ w : World, (∀ a ∈ args, a.1 < w.mem.objs.length) →
      ∃ w1, addAll w args = some (w1, idsFrom w.store.nextID args.length) := by
  induction args with
  | nil => intro w _; exact ⟨w, by simp [addAll, idsFrom]⟩
  | cons a rest ih =>
    intro w h
    obtain ⟨w1, h1, h2, h3⟩ := Add_of_lt w a.1 a.2 (h a (List.mem_cons_self _ _))
    obtain ⟨w2, h4⟩ := ih w1 (fun b hb => by rw [h3]; exact h b (List.mem_cons_of_mem _ hb))
    exact ⟨w2, by simp only [addAll, h1, h4, List.length_cons, idsFrom_succ, h2]⟩

theorem fresh_nextID (w : World) (h : w.store = NewStorage ∨ ∃ w0, w = Storage.Clear w0) :
    w.store.nextID = 1 := by
  rcases h with h | ⟨w0, h⟩
  · rw [h]; rfl
  · rw [h]; rfl

/-- A trace run in two parts. -/
theorem run_append (ops1 ops2 : List Op) :
    ∀ (w w3 : World) (rets : List Ret), run w (ops1 ++ ops2) = some (w3, rets) →
      ∃ w1 rets1 rets2, run w ops1 = some (w1, rets1) ∧ run w1 ops2 = some (w3, rets2) ∧
        rets = rets1 ++ rets2 := by
  induction ops1 with
  | nil =>
    intro w w3 rets h
    exact ⟨w, [], rets, rfl, h, rfl⟩
  | cons op rest ih =>
    intro w w3 rets h
    rw [List.cons_append] at h
    cases hs : step w op with
    | none => simp [run, hs] at h
    | some r =>
      cases hr : run r.1 (rest ++ ops2) with
      | none => simp [run, hs, hr] at h
      | some r2 =>
        simp only [run, hs, hr, Option.some.injEq, Prod.mk.injEq] at h
        obtain ⟨rfl, rfl⟩ := h
        obtain ⟨w1, rets1, rets2, a1, a2, a3⟩ := ih r.1 r2.1 r2.2 hr
        refine ⟨w1, r.2 :: rets1, rets2, ?_, a2, ?_⟩
        · simp only [run, hs, a1]
        · rw [a3]; rfl

/-- A trace that ends `..., Add(p), ops2` with no `Clear` in `ops2`, seen from
its end: the `Add` returned an id, and a `Get` of that id at the end finds a
message that has the `From`, `To`, `Subject`, `Body` and `Raw` the message at `p`
had when it was handed to `Add`. -/
theorem stored_content (ops1 ops2 : List Op) (p : Nat) (now : String) (w : World)
    (rets : List Ret) (h : run World.init (ops1 ++ Op.add p now :: ops2) = some (w, rets))
    (hnc : noClear ops2) :
    ∃ w1 rets1 w2 id v0 w5 q v, run World.init ops1 = some (w1, rets1) ∧
      Storage.Add w1 p now = some (w2, id) ∧ w1.mem.value p = some v0 ∧
      Storage.Get w id = some (w5, some q) ∧ w5.mem.value q = some v ∧
      v.From = v0.From ∧ v.To = v0.To ∧ v.Subject = v0.Subject ∧ v.Body = v0.Body ∧
      v.Raw = v0.Raw := by
  obtain ⟨w1, rets1, rets2, a1, a2, _⟩ := run_append ops1 _ World.init w rets h
  cases hs : step w1 (Op.add p now) with
  | none => simp [run, hs] at a2
  | some r =>
    cases hr : run r.1 ops2 with
    | none => simp [run, hs, hr] at a2
    | some r2 =>
      simp only [run, hs, hr, Option.some.injEq, Prod.mk.injEq] at a2
      obtain ⟨hw, _⟩ := a2
      cases ha : Storage.Add w1 p now with
      | none => simp [step, ha] at hs
      | some ra =>
        simp only [step, ha, Option.some.injEq] at hs
        have hi1 := (run_init ops1 w1 rets1 a1).1
        obtain ⟨i1, i2, i3, _, i5, _, i7, _, _⟩ := Add_inv w1 ra.1 p now ra.2 hi1 ha
        have hr1 : r.1 = ra.1 := by rw [← hs]
        rw [hr1] at hr
        obtain ⟨j1, j2, _, _, j5⟩ := run_inv ops2 ra.1 r2.1 r2.2 i1 hr
        obtain ⟨j5a, _⟩ := j5 hnc
        rw [hw] at j1 j2 j5a
        have hget : mapGet w.store.messages ra.2 = some p := by
          rw [j5a ra.2 (by rw [i3, i2]; omega), i7]
        obtain ⟨x, hx, _, _⟩ := Add_some w1 ra.1 p now ra.2 ha
        obtain ⟨y, hy, hxy⟩ := (Ext_trans i5 j2).2 p x hx
        have hok := hi1.1 x (mem_of_getElem? _ _ _ hx)
        have harr : w1.mem.ArrLe w.mem := (Ext_trans i5 j2).1
        rcases Get_spec w ra.2 j1 with ⟨g1, _⟩ | ⟨p', x', w5, c, g1, g2, g3, _, g5, _, _, g8, _⟩
        · rw [hget] at g1; cases g1
        · rw [hget] at g1
          simp only [Option.some.injEq] at g1
          subst g1
          rw [hy] at g2
          simp only [Option.some.injEq] at g2
          subst g2
          have hq : w5.mem.value w.mem.objs.length = some (w.mem.valueOf y) := by
            simp [Memory.value, g5, g8]
          refine ⟨w1, rets1, ra.1, ra.2, w1.mem.valueOf x, w5, _, _, a1, ha, ?_, g3, hq,
            hxy.1, ?_, hxy.2.2.1, hxy.2.2.2.1, ?_⟩
          · simp [Memory.value, hx]
          · show w.mem.readStrs y.To = w1.mem.readStrs x.To
            rw [hxy.2.1]
            exact readStrs_of_le _ _ _ harr.1 hok.1
          · show w.mem.readBytes y.Raw = w1.mem.readBytes x.Raw
            rw [hxy.2.2.2.2]
            exact readBytes_of_le _ _ _ harr.2 hok.2

theorem prefix_set_of_le {α : Type} (l0 l : List α) (a : Nat) (x : α) (h : l0 <+: l)
    (ha : l0.length ≤ a) : l0 <+: l.set a x := by
  obtain ⟨t, rfl⟩ := h
  rw [List.set_append_right _ _ ha]
  exact List.prefix_append _ _

theorem getD_length_eq {α : Type} (l : List (List α)) (i : Nat) :
    (l.getD i []).length = (l.map List.length).getD i 0 := by
  simp only [List.getD_eq_getElem?_getD, List.getElem?_map]
  cases l[i]? <;> rfl

theorem map_length_set {α : Type} (l : List (List α)) (a j : Nat) (v : α) :
    (l.set a ((l.getD a []).set j v)).map List.length = l.map List.length := by
  apply List.ext_getElem?
  intro k
  rw [List.map_set, List.getElem?_set]
  by_cases hk : a = k
  · subst hk
    simp only [if_true, List.length_map, List.length_set, List.getD_eq_getElem?_getD,
      List.getElem?_map]
    by_cases hl : a < l.length
    · simp [hl, List.getElem?_eq_getElem hl]
    · simp [hl, List.getElem?_eq_none (Nat.le_of_not_lt hl)]
  · simp [hk]

theorem okStrs_of_shape (m m1 : Memory) (s : Slice)
    (h : m1.strArrs.map List.length = m.strArrs.map List.length) (hs : m.okStrs s) :
    m1.okStrs s := by
  have hl : m1.strArrs.length = m.strArrs.length := by
    have := congrArg List.length h
    simpa using this
  unfold Memory.okStrs at hs ⊢
  rw [getD_length_eq, h, ← getD_length_eq, hl]
  exact hs

theorem okBytes_of_shape (m m1 : Memory) (s : Slice)
    (h : m1.byteArrs.map List.length = m.byteArrs.map List.length) (hs : m.okBytes s) :
    m1.okBytes s := by
  have hl : m1.byteArrs.length = m.byteArrs.length := by
    have := congrArg List.length h
    simpa using this
  unfold Memory.okBytes at hs ⊢
  rw [getD_length_eq, h, ← getD_length_eq, hl]
  exact hs

/-- An assignment to a field other than `To` and `Raw` of a message at an
address that `m0` does not have. -/
theorem setField_frame (m0 m : Memory) (qs : List Nat) (q : Nat) (c d : Message)
    (hle : m0.Le m) (hw : m.WF) (hf : m0.Fresh m qs) (hq : m0.objs.length ≤ q)
    (hc : m.objs[q]? = some c) (hto : d.To = c.To) (hraw : d.Raw = c.Raw) :
    m0.Le { m with objs := m.objs.set q d } ∧ Memory.WF { m with objs := m.objs.set q d } ∧
      m0.Fresh { m with objs := m.objs.set q d } qs := by
  refine ⟨⟨prefix_set_of_le _ _ _ _ hle.1 hq, hle.2⟩, ?_, ?_⟩
  · refine WF_of_arrLe m _ hw ⟨List.prefix_refl _, List.prefix_refl _⟩ ?_
    intro y hy
    rcases List.mem_or_eq_of_mem_set hy with h1 | h1
    · exact Or.inl ⟨y, h1, rfl, rfl⟩
    · exact Or.inl ⟨c, mem_of_getElem? _ _ _ hc, by rw [h1, hto], by rw [h1, hraw]⟩
  · intro q' hq'
    obtain ⟨f1, c', f2, f3, f4⟩ := hf q' hq'
    refine ⟨f1, ?_⟩
    by_cases hqq : q = q'
    · subst hqq
      rw [hc] at f2
      simp only [Option.some.injEq] at f2
      subst f2
      refine ⟨d, ?_, by rw [hto]; exact f3, by rw [hraw]; exact f4⟩
      simp [List.getElem?_set, lt_of_getElem? _ _ _ hc]
    · exact ⟨c', by simp only [List.getElem?_set_ne hqq]; exact f2, f3, f4⟩

/-- One assignment through a pointer to a message `m0` does not have, whose
slices are over arrays `m0` does not have: `m0` is still there unchanged, the
memory is still well formed. -/
theorem edit_frame (m0 m m1 : Memory) (qs : List Nat) (q : Nat) (e : Edit)
    (hle : m0.Le m) (hw : m.WF) (hf : m0.Fresh m qs) (hq : q ∈ qs)
    (h : m.edit q e = some m1) : m0.Le m1 ∧ m1.WF ∧ m0.Fresh m1 qs := by
  obtain ⟨f1, c, f2, f3, f4⟩ := hf q hq
  unfold Memory.edit at h
  rw [f2] at h
  cases e with
  | setID v =>
    simp only [Option.some.injEq] at h; subst h
    exact setField_frame m0 m qs q c _ hle hw hf f1 f2 rfl rfl
  | setFrom v =>
    simp only [Option.some.injEq] at h; subst h
    exact setField_frame m0 m qs q c _ hle hw hf f1 f2 rfl rfl
  | setSubject v =>
    simp only [Option.some.injEq] at h; subst h
    exact setField_frame m0 m qs q c _ hle hw hf f1 f2 rfl rfl
  | setBody v =>
    simp only [Option.some.injEq] at h; subst h
    exact setField_frame m0 m qs q c _ hle hw hf f1 f2 rfl rfl
  | setCreatedAt v =>
    simp only [Option.some.injEq] at h; subst h
    exact setField_frame m0 m qs q c _ hle hw hf f1 f2 rfl rfl
  | setTo i v =>
    simp only at h
    split at h
    · rename_i hi
      simp only [Option.some.injEq] at h; subst h
      have ha : m0.strArrs.length ≤ c.To.arr := by
        rcases f3 with h0 | h0
        · omega
        · exact h0
      refine ⟨⟨hle.1, prefix_set_of_le _ _ _ _ hle.2.1 ha, hle.2.2⟩, ?_, hf⟩
      intro y hy
      have hy' := hw y hy
      exact ⟨okStrs_of_shape m _ _ (map_length_set _ _ _ _) hy'.1, hy'.2⟩
    · cases h
  | setRaw i b =>
    simp only at h
    split at h
    · rename_i hi
      simp only [Option.some.injEq] at h; subst h
      have ha : m0.byteArrs.length ≤ c.Raw.arr := by
        rcases f4 with h0 | h0
        · omega
        · exact h0
      refine ⟨⟨hle.1, hle.2.1, prefix_set_of_le _ _ _ _ hle.2.2 ha⟩, ?_, hf⟩
      intro y hy
      have hy' := hw y hy
      exact ⟨hy'.1, okBytes_of_shape m _ _ (map_length_set _ _ _ _) hy'.2⟩
    · cases h

/-- A sequence of assignments through pointers to messages `m0` does not have. -/
theorem editAll_frame (es : List (Nat × Edit)) :
    ∀ (m0 m m2 : Memory) (qs : List Nat), m0.Le m → m.WF → m0.Fresh m qs →
      (∀ e ∈ es, e.1 ∈ qs) → m.editAll es = some m2 → m0.Le m2 ∧ m2.WF := by
  induction es with
  | nil =>
    intro m0 m m2 qs hle hw _ _ h
    simp only [Memory.editAll, Option.some.injEq] at h
    subst h
    exact ⟨hle, hw⟩
  | cons e rest ih =>
    intro m0 m m2 qs hle hw hf hq h
    cases he : m.edit e.1 e.2 with
    | none => simp [Memory.editAll, he] at h
    | some m1 =>
      simp only [Memory.editAll, he] at h
      obtain ⟨a1, a2, a3⟩ := edit_frame m0 m m1 qs e.1 e.2 hle hw hf
        (hq e (List.mem_cons_self _ _)) he
      exact ih m0 m1 m2 qs a1 a2 a3 (fun e1 he1 => hq e1 (List.mem_cons_of_mem _ he1)) h

/-- The invariant carries over to a well-formed memory that extends the old one. -/
theorem Inv_of_le (w : World) (m2 : Memory) (hi : w.Inv) (hle : w.mem.Le m2) (hw : m2.WF) :
    World.Inv ⟨m2, w.store⟩ :=
  ⟨hw, fun e he => lt_of_lt_of_le (hi.2.1 e he) (Le_length_le hle), hi.2.2.1, hi.2.2.2⟩

/-- The values of the stored messages in a memory that extends the old one. -/
theorem stored_value_of_le (w : World) (m2 : Memory) (hi : w.Inv) (hle : w.mem.Le m2)
    (e : Int × Nat) (he : e ∈ w.store.messages) : m2.value e.2 = w.mem.value e.2 :=
  value_of_le w.mem m2 e.2 hi.1 hle (hi.2.1 e he)

/-- `Get` after the caller wrote through pointers that a read returned: the
result has the value the stored message had before the read. -/
theorem Get_of_le (w : World) (m2 : Memory) (id : Int) (p : Nat) (x : Message) (hi : w.Inv)
    (hle : w.mem.Le m2) (hw : m2.WF) (hg : mapGet w.store.messages id = some p)
    (hx : w.mem.objs[p]? = some x) :
    ∃ w3 q3, Storage.Get ⟨m2, w.store⟩ id = some (w3, some q3) ∧
      w3.mem.value q3 = some (w.mem.valueOf x) := by
  have hi2 := Inv_of_le w m2 hi hle hw
  have hp := lt_of_getElem? _ _ _ hx
  have hok := hi.1 x (mem_of_getElem? _ _ _ hx)
  rcases Get_spec ⟨m2, w.store⟩ id hi2 with ⟨g1, _⟩ | ⟨p', x', w3, c, g1, g2, g3, _, g5, _, _, g8, _⟩
  · rw [hg] at g1; cases g1
  · rw [hg] at g1
    simp only [Option.some.injEq] at g1
    subst g1
    have hx2 : m2.objs[p]? = some x := by rw [getElem?_of_initial _ _ _ hle.1 hp]; exact hx
    rw [hx2] at g2
    simp only [Option.some.injEq] at g2
    subst g2
    refine ⟨w3, _, g3, ?_⟩
    have : w3.mem.value m2.objs.length = some (w3.mem.valueOf c) := by
      simp [Memory.value, g5]
    rw [this, g8]
    exact congrArg some (valueOf_of_arrLe w.mem m2 x hle.2 hok.1 hok.2)

/-- A step that is not an `Add` of `p` leaves the message at `p` as it is. -/
theorem step_keeps_obj (w w1 : World) (op : Op) (r : Ret) (p : Nat) (hi : w.Inv)
    (h : step w op = some (w1, r)) (hp : p < w.mem.objs.length)
    (hne : ∀ now, op ≠ Op.add p now) : w1.mem.objs[p]? = w.mem.objs[p]? := by
  cases op with
  | newStrs xs =>
    simp only [step, Option.some.injEq, Prod.mk.injEq] at h
    obtain ⟨rfl, _⟩ := h; rfl
  | newBytes bs =>
    simp only [step, Option.some.injEq, Prod.mk.injEq] at h
    obtain ⟨rfl, _⟩ := h; rfl
  | newMsg m =>
    simp only [step] at h
    split at h
    · simp only [Option.some.injEq, Prod.mk.injEq] at h
      obtain ⟨rfl, _⟩ := h
      exact List.getElem?_append_left hp
    · cases h
  | add msg now =>
    cases ha : Storage.Add w msg now with
    | none => simp [step, ha] at h
    | some r1 =>
      simp only [step, ha, Option.some.injEq, Prod.mk.injEq] at h
      obtain ⟨rfl, _⟩ := h
      obtain ⟨x, _, _, hw1⟩ := Add_some w r1.1 msg now r1.2 ha
      have hmp : msg ≠ p := fun hh => hne now (by rw [hh])
      rw [hw1]
      exact List.getElem?_set_ne hmp
  | get id =>
    cases hg : Storage.Get w id with
    | none => simp [step, hg] at h
    | some r1 =>
      simp only [step, hg, Option.some.injEq, Prod.mk.injEq] at h
      obtain ⟨rfl, _⟩ := h
      rcases Get_spec w id hi with ⟨_, g2⟩ | ⟨_, _, w2, _, _, _, g3, _, _, g6, _⟩
      · rw [g2] at hg
        simp only [Option.some.injEq] at hg
        rw [← hg]
      · rw [g3] at hg
        simp only [Option.some.injEq] at hg
        rw [← hg]
        exact getElem?_of_initial _ _ _ g6.1 hp
  | list iter =>
    simp only [step] at h
    split at h
    · rename_i hperm
      obtain ⟨w2, qs, l1, _, l3, _⟩ := List_spec w iter hi hperm
      rw [l1] at h
      simp only [Option.some.injEq, Prod.mk.injEq] at h
      obtain ⟨rfl, _⟩ := h
      exact getElem?_of_initial _ _ _ l3.1 hp
    · cases h
  | clear =>
    simp only [step, Option.some.injEq, Prod.mk.injEq] at h
    obtain ⟨rfl, _⟩ := h; rfl

/-- A trace that does not hand `p` to `Add` leaves the message at `p` as it is. -/
theorem run_keeps_obj (ops : List Op) (p : Nat) :
    ∀ (w w1 : World) (rets : List Ret), w.Inv → run w ops = some (w1, rets) →
      p < w.mem.objs.length → p ∉ addedPtrs ops → w1.mem.objs[p]? = w.mem.objs[p]? := by
  induction ops with
  | nil =>
    intro w w1 rets _ h _ _
    simp only [run, Option.some.injEq, Prod.mk.injEq] at h
    rw [← h.1]
  | cons op rest ih =>
    intro w w1 rets hi h hp hnot
    cases hs : step w op with
    | none => simp [run, hs] at h
    | some r =>
      cases hr : run r.1 rest with
      | none => simp [run, hs, hr] at h
      | some r2 =>
        simp only [run, hs, hr, Option.some.injEq, Prod.mk.injEq] at h
        obtain ⟨rfl, _⟩ := h
        obtain ⟨s1, s2, _⟩ := step_inv w r.1 op r.2 hi hs
        have hne : ∀ now, op ≠ Op.add p now := by
          intro now hh
          apply hnot
          rw [hh]
          simp [addedPtrs]
        have hrest : p ∉ addedPtrs rest := by
          intro hh
          apply hnot
          unfold addedPtrs at hh ⊢
          rw [List.filterMap_cons]
          split
          · exact hh
          · exact List.mem_cons_of_mem _ hh
        rw [ih r.1 r2.1 r2.2 s1 hr (lt_of_lt_of_le hp (Ext_length_le s2)) hrest]
        exact step_keeps_obj w r.1 op r.2 p hi hs hp hne

/-- Around C5, what holds: for an `Add` of the trace after which there is no
`Clear` and no further `Add` of the same pointer, `Get` of the id it returned
finds the message as that `Add` stored it: the id as `ID`, the timestamp of that
`Add` as `CreatedAt`, and the content the message had when it was handed in. -/
theorem stored_message_fixed_unless_added_again (ops1 ops2 : List Op) (p : Nat)
    (now : String) (w : World) (rets : List Ret)
    (h : run World.init (ops1 ++ Op.add p now :: ops2) = some (w, rets))
    (hnc : noClear ops2) (hp : p ∉ addedPtrs ops2) :
    ∃ w1 rets1 w2 id v0 w5 q, run World.init ops1 = some (w1, rets1) ∧
      Storage.Add w1 p now = some (w2, id) ∧ w1.mem.value p = some v0 ∧
      Storage.Get w id = some (w5, some q) ∧
      w5.mem.value q = some { v0 with ID := id, CreatedAt := now } := by
  obtain ⟨w1, rets1, w2, id, v0, w5, q, v, s1, s2, s3, s4, s5, s6, s7, s8, s9, s10⟩ :=
    stored_content ops1 ops2 p now w rets h hnc
  refine ⟨w1, rets1, w2, id, v0, w5, q, s1, s2, s3, s4, ?_⟩
  obtain ⟨_, _, rets2, a1, a2, _⟩ := run_append ops1 _ World.init w rets h
  rw [s1] at a1
  simp only [Option.some.injEq, Prod.mk.injEq] at a1
  obtain ⟨rfl, _⟩ := a1
  have hi1 := (run_init ops1 w1 rets1 s1).1
  obtain ⟨i1, i2, _, _, _, i6, i7, _, i9⟩ := Add_inv w1 w2 p now id hi1 s2
  obtain ⟨x, hx, _, _⟩ := Add_some w1 w2 p now id s2
  have hplt := lt_of_getElem? _ _ _ hx
  cases hr : run w2 ops2 with
  | none => simp [run, step, s2, hr] at a2
  | some r2 =>
    simp only [run, step, s2, hr, Option.some.injEq, Prod.mk.injEq] at a2
    obtain ⟨hw, _⟩ := a2
    have hkeep := run_keeps_obj ops2 p w2 r2.1 r2.2 i1 hr (by rw [i6]; exact hplt) hp
    rw [hw] at hkeep
    obtain ⟨j1, _, _, _, j5⟩ := run_inv ops2 w2 r2.1 r2.2 i1 hr
    rw [hw] at j1
    have hget : mapGet w.store.messages id = some p := by
      have := (j5 hnc).1 id (by
        have := (Add_inv w1 w2 p now id hi1 s2).2.2.1
        rw [this, i2]; omega)
      rw [hw] at this
      rw [this, i7]
    rcases Get_spec w id j1 with ⟨g1, _⟩ | ⟨p', x', w5', c, g1, g2, g3, _, g5, _, _, g8, _⟩
    · rw [hget] at g1; cases g1
    · rw [hget] at g1
      simp only [Option.some.injEq] at g1
      subst g1
      rw [g3] at s4
      simp only [Option.some.injEq, Prod.mk.injEq] at s4
      obtain ⟨rfl, rfl⟩ := s4
      have hq : w5'.mem.value w.mem.objs.length = some (w.mem.valueOf x') := by
        simp [Memory.value, g5, g8]
      rw [hq] at s5
      simp only [Option.some.injEq] at s5
      have hv2 : w2.mem.value p = some (w2.mem.valueOf x') := by
        simp [Memory.value, ← hkeep, g2]
      rw [i9, s3] at hv2
      simp only [Option.map_some', Option.some.injEq] at hv2
      rw [hq]
      congr 1
      have e1 : (w.mem.valueOf x').ID = id := by
        have := congrArg Value.ID hv2; simpa [Memory.valueOf] using this.symm
      have e2 : (w.mem.valueOf x').CreatedAt = now := by
        have := congrArg Value.CreatedAt hv2; simpa [Memory.valueOf] using this.symm
      rw [← s5] at s6 s7 s8 s9 s10
      cases hvv : w.mem.valueOf x' with
      | mk a b c d e f g =>
        rw [hvv] at e1 e2 s6 s7 s8 s9 s10
        simp only at e1 e2 s6 s7 s8 s9 s10
        subst e1 e2 s6 s7 s8 s9 s10
        rfl

/-- A step other than `Add` and `Clear` leaves the store as it is. -/
theorem step_keeps_store (w w1 : World) (op : Op) (r : Ret) (hi : w.Inv)
    (h : step w op = some (w1, r)) (hadd : ∀ p now, op ≠ Op.add p now)
    (hclear : op ≠ Op.clear) : w1.store = w.store := by
  cases op with
  | newStrs xs =>
    simp only [step, Option.some.injEq, Prod.mk.injEq] at h
    obtain ⟨rfl, _⟩ := h; rfl
  | newBytes bs =>
    simp only [step, Option.some.injEq, Prod.mk.injEq] at h
    obtain ⟨rfl, _⟩ := h; rfl
  | newMsg m =>
    simp only [step] at h
    split at h
    · simp only [Option.some.injEq, Prod.mk.injEq] at h
      obtain ⟨rfl, _⟩ := h; rfl
    · cases h
  | add msg now => exact absurd rfl (hadd msg now)
  | get id =>
    cases hg : Storage.Get w id with
    | none => simp [step, hg] at h
    | some r1 =>
      simp only [step, hg, Option.some.injEq, Prod.mk.injEq] at h
      obtain ⟨rfl, _⟩ := h
      rcases Get_spec w id hi with ⟨_, g2⟩ | ⟨_, _, w2, _, _, _, g3, g4, _⟩
      · rw [g2] at hg
        simp only [Option.some.injEq] at hg
        rw [← hg]
      · rw [g3] at hg
        simp only [Option.some.injEq] at hg
        rw [← hg]
        exact g4
  | list iter =>
    simp only [step] at h
    split at h
    · rename_i hperm
      obtain ⟨w2, qs, l1, l2, _⟩ := List_spec w iter hi hperm
      rw [l1] at h
      simp only [Option.some.injEq, Prod.mk.injEq] at h
      obtain ⟨rfl, _⟩ := h
      exact l2
    · cases h
  | clear => exact absurd rfl hclear

/-- As long as no pointer is handed to `Add` twice since the last `Clear`, every
key of the map is the `ID` of its message, and the map holds the pointers handed
in since then. -/
theorem step_keys (w w1 : World) (op : Op) (r : Ret) (acc : List Nat) (hi : w.Inv)
    (hk : acc.Nodup → w.KeysAreIDs ∧ ∀ e ∈ w.store.messages, e.2 ∈ acc)
    (h : step w op = some (w1, r)) :
    (addedStep acc op).Nodup →
      w1.KeysAreIDs ∧ ∀ e ∈ w1.store.messages, e.2 ∈ addedStep acc op := by
  have hother : (∀ p now, op ≠ Op.add p now) → op ≠ Op.clear → addedStep acc op = acc →
      (addedStep acc op).Nodup →
      w1.KeysAreIDs ∧ ∀ e ∈ w1.store.messages, e.2 ∈ addedStep acc op := by
    intro hadd hclear heq hnd
    rw [heq] at hnd ⊢
    obtain ⟨k1, k2⟩ := hk hnd
    have hst := step_keeps_store w w1 op r hi h hadd hclear
    rw [hst]
    refine ⟨?_, k2⟩
    intro e he
    have he' : e ∈ w.store.messages := by rw [← hst]; exact he
    obtain ⟨x, hx, hid⟩ := k1 e he'
    refine ⟨x, ?_, hid⟩
    rw [step_keeps_obj w w1 op r e.2 hi h (hi.2.1 e he') (fun now => hadd e.2 now)]
    exact hx
  cases op with
  | newStrs xs => exact hother (fun _ _ hh => by cases hh) (fun hh => by cases hh) rfl
  | newBytes bs => exact hother (fun _ _ hh => by cases hh) (fun hh => by cases hh) rfl
  | newMsg m => exact hother (fun _ _ hh => by cases hh) (fun hh => by cases hh) rfl
  | get id => exact hother (fun _ _ hh => by cases hh) (fun hh => by cases hh) rfl
  | list iter => exact hother (fun _ _ hh => by cases hh) (fun hh => by cases hh) rfl
  | clear =>
    intro _
    simp only [step, Option.some.injEq, Prod.mk.injEq] at h
    obtain ⟨rfl, _⟩ := h
    exact ⟨fun e he => (by cases he), fun e he => (by cases he)⟩
  | add msg now =>
    intro hnd
    simp only [addedStep] at hnd ⊢
    have hnd1 : acc.Nodup := (List.nodup_append.1 hnd).1
    have hnot : msg ∉ acc := by
      intro hh
      exact (List.nodup_append.1 hnd).2.2 hh (List.mem_singleton.2 rfl)
    obtain ⟨k1, k2⟩ := hk hnd1
    cases ha : Storage.Add w msg now with
    | none => simp [step, ha] at h
    | some r1 =>
      simp only [step, ha, Option.some.injEq, Prod.mk.injEq] at h
      obtain ⟨rfl, _⟩ := h
      obtain ⟨x, hx, hid, hw1⟩ := Add_some w r1.1 msg now r1.2 ha
      have hobjs : r1.1.mem.objs =
          w.mem.objs.set msg { x with ID := w.store.nextID, CreatedAt := now } := by rw [hw1]
      have hmsgs : r1.1.store.messages = mapSet w.store.messages w.store.nextID msg := by
        rw [hw1]
      refine ⟨?_, ?_⟩
      · intro e he
        rw [hmsgs] at he
        rcases mem_mapSet _ _ _ _ he with h1 | h1
        · rw [h1, hobjs]
          refine ⟨{ x with ID := w.store.nextID, CreatedAt := now }, ?_, rfl⟩
          simp [List.getElem?_set, lt_of_getElem? _ _ _ hx]
        · obtain ⟨y, hy, hyid⟩ := k1 e h1
          have hne : msg ≠ e.2 := fun hh => hnot (by rw [hh]; exact k2 e h1)
          exact ⟨y, by rw [hobjs, List.getElem?_set_ne hne]; exact hy, hyid⟩
      · intro e he
        rw [hmsgs] at he
        rcases mem_mapSet _ _ _ _ he with h1 | h1
        · rw [h1]; exact List.mem_append_right _ (List.mem_singleton.2 rfl)
        · exact List.mem_append_left _ (k2 e h1)

theorem run_keys (ops : List Op) :
    ∀ (w w1 : World) (rets : List Ret) (acc : List Nat), w.Inv →
      (acc.Nodup → w.KeysAreIDs ∧ ∀ e ∈ w.store.messages, e.2 ∈ acc) →
      run w ops = some (w1, rets) → (ops.foldl addedStep acc).Nodup → w1.KeysAreIDs := by
  induction ops with
  | nil =>
    intro w w1 rets acc _ hk h hnd
    simp only [run, Option.some.injEq, Prod.mk.injEq] at h
    rw [← h.1]
    exact (hk hnd).1
  | cons op rest ih =>
    intro w w1 rets acc hi hk h hnd
    cases hs : step w op with
    | none => simp [run, hs] at h
    | some r =>
      cases hr : run r.1 rest with
      | none => simp [run, hs, hr] at h
      | some r2 =>
        simp only [run, hs, hr, Option.some.injEq, Prod.mk.injEq] at h
        obtain ⟨rfl, _⟩ := h
        obtain ⟨s1, _⟩ := step_inv w r.1 op r.2 hi hs
        exact ih r.1 r2.1 r2.2 (addedStep acc op) s1 (step_keys w r.1 op r.2 acc hi hk hs) hr hnd

/-- Around C7, what holds: in a state reached by a trace in which no pointer is
handed to `Add` twice since the last `Clear`, `List()` returns one element per
key of the map, the `ID` of each element is its key, and the keys are
`1, ..., n` for the `n` calls of `Add` since the last `Clear`, each once. -/
theorem List_ids_exact_when_no_message_added_twice (ops : List Op) (w : World)
    (rets : List Ret) (iter : List (Int × Nat)) (h : run World.init ops = some (w, rets))
    (hnd : (addedSinceClear ops).Nodup) (hperm : iter.Perm w.store.messages) :
    ∃ w1 qs, Storage.List w iter = some (w1, qs) ∧ qs.length = addsSinceClear ops ∧
      qs.map (fun q => (w1.mem.value q).map Value.ID) = iter.map (fun e => some e.1) ∧
      (iter.map Prod.fst).Perm (idsFrom 1 (addsSinceClear ops)) ∧
      (iter.map Prod.fst).Nodup := by
  obtain ⟨hi, _, h2⟩ := run_init ops w rets h
  have hkeys : w.KeysAreIDs :=
    run_keys ops World.init w rets [] init_inv
      (fun _ => ⟨fun e he => (by cases he), fun e he => (by cases he)⟩) h hnd
  obtain ⟨w1, qs, l1, _, _, _, _, l6, _, l8, _⟩ := List_spec w iter hi hperm
  have hp2 : (iter.map Prod.fst).Perm (idsFrom 1 (addsSinceClear ops)) := by
    rw [h2]
    exact (hperm.map Prod.fst).trans hi.2.2.2
  refine ⟨w1, qs, l1, ?_, ?_, hp2, hp2.nodup_iff.2 (idsFrom_nodup _ _)⟩
  · rw [l6, List.length_range', ← idsFrom_length 1 (addsSinceClear ops), ← hp2.length_eq,
      List.length_map]
  · have : qs.map (fun q => (w1.mem.value q).map Value.ID) =
        (qs.map w1.mem.value).map (fun v => v.map Value.ID) := by
      rw [List.map_map]; rfl
    rw [this, l8, List.map_map]
    apply List.map_congr_left
    intro e he
    obtain ⟨x, hx, hid⟩ := hkeys e (hperm.mem_iff.1 he)
    simp [Memory.value, hx, Value.noRaw, Memory.valueOf, hid]

theorem take_succ_set {α : Type} (l : List α) (n : Nat) (v : α) (h : n < l.length) :
    (l.set n v).take (n + 1) = l.take n ++ [v] := by
  apply List.ext_getElem?
  intro i
  rw [List.getElem?_take, List.getElem?_append, List.getElem?_set]
  simp only [List.length_take, List.getElem?_take]
  by_cases h1 : i < n
  · have h2 : ¬ n = i := by omega
    have h3 : i < n + 1 := by omega
    have h4 : i < min n l.length := by omega
    simp [h1, h2, h3, h4]
  · by_cases h2 : i = n
    · subst h2
      have h4 : ¬ i < min i l.length := by omega
      simp [h, h4, min_eq_left (le_of_lt h)]
    · have h3 : ¬ i < n + 1 := by omega
      have h4 : ¬ i < min n l.length := by omega
      have h5 : i - min n l.length ≠ 0 := by omega
      simp [h3, h4]
      cases hm : i - min n l.length with
      | zero => exact absurd hm h5
      | succ k => omega

/-- The slice `s` of capacity `cap` refers to elements that exist. -/
theorem appendStr_spec (m : Memory) (s : Slice) (cap : Nat) (v : String) (grow : Nat)
    (hok : (s.len = 0 ∧ cap = 0) ∨ (s.len ≤ cap ∧ s.arr < m.strArrs.length ∧
      s.off + cap ≤ (m.strArrs.getD s.arr []).length)) :
    (m.appendStr s cap v grow).1.objs = m.objs ∧
    (m.appendStr s cap v grow).1.byteArrs = m.byteArrs ∧
    (∀ t, m.okStrs t → (m.appendStr s cap v grow).1.okStrs t) ∧
    ((m.appendStr s cap v grow).2.1.len ≤ (m.appendStr s cap v grow).2.2 ∧
      (m.appendStr s cap v grow).2.1.arr < (m.appendStr s cap v grow).1.strArrs.length ∧
      (m.appendStr s cap v grow).2.1.off + (m.appendStr s cap v grow).2.2 ≤
        ((m.appendStr s cap v grow).1.strArrs.getD (m.appendStr s cap v grow).2.1.arr []).length) ∧
    (m.appendStr s cap v grow).1.readStrs (m.appendStr s cap v grow).2.1 =
      m.readStrs s ++ [v] := by
  have hoks : m.okStrs s := by
    rcases hok with ⟨h0, _⟩ | ⟨h1, h2, h3⟩
    · exact Or.inl h0
    · exact Or.inr ⟨h2, by omega⟩
  have hlen := readStrs_length m s hoks
  unfold Memory.appendStr
  by_cases hc : s.len < cap
  · rw [if_pos hc]
    rcases hok with ⟨_, h0⟩ | ⟨h1, h2, h3⟩
    · omega
    · have hget : (m.strArrs.set s.arr ((m.strArrs.getD s.arr []).set (s.off + s.len) v)).getD
          s.arr [] = (m.strArrs.getD s.arr []).set (s.off + s.len) v := by
        simp [List.getD_eq_getElem?_getD, List.getElem?_set, h2]
      refine ⟨rfl, rfl, ?_, ⟨by simp only; omega, by simp only [List.length_set]; exact h2, ?_⟩, ?_⟩
      · intro t ht
        exact okStrs_of_shape m _ t (map_length_set _ _ _ _) ht
      · simp only
        rw [hget, List.length_set]; exact h3
      · simp only [Memory.readStrs]
        rw [hget, List.drop_set, if_neg (by omega), Nat.add_sub_cancel_left]
        exact take_succ_set _ _ _ (by rw [List.length_drop]; omega)
  · rw [if_neg hc]
    refine ⟨rfl, rfl, ?_, ⟨?_, ?_, ?_⟩, ?_⟩
    · intro t ht
      exact okStrs_of_le m _ t (List.prefix_append _ _) ht
    · simp only; omega
    · simp
    · simp only [List.getD_eq_getElem?_getD, zero_add]
      simp [hlen]
      omega
    · simp only [Memory.readStrs, List.getD_eq_getElem?_getD]
      simp only [List.getElem?_concat_length, Option.getD_some, List.drop_zero, List.append_assoc]
      rw [← List.append_assoc, List.take_left']
      simp [Memory.readStrs, List.getD_eq_getElem?_getD] at hlen ⊢
      omega

theorem okStrs_of_okSession (m : Memory) (s : session) (h : m.okSession s) :
    m.okStrs s.to_ := by
  rcases h with ⟨h0, _⟩ | ⟨h1, h2, h3⟩
  · exact Or.inl h0
  · exact Or.inr ⟨h2, by omega⟩

/-- `Rcpt` keeps the invariant of the store and of the session, and the
recipients of the session are those before and the new one. -/
theorem Rcpt_spec (w : World) (s : session) (rcpt : String) (grow : Nat) (hi : w.Inv)
    (hs : w.mem.okSession s) :
    World.Inv ⟨(session.Rcpt w.mem s rcpt grow).1, w.store⟩ ∧
    (session.Rcpt w.mem s rcpt grow).1.okSession (session.Rcpt w.mem s rcpt grow).2 ∧
    (session.Rcpt w.mem s rcpt grow).1.readStrs (session.Rcpt w.mem s rcpt grow).2.to_ =
      w.mem.readStrs s.to_ ++ [rcpt] ∧
    (session.Rcpt w.mem s rcpt grow).2.from_ = s.from_ := by
  obtain ⟨a1, a2, a3, a4, a5⟩ := appendStr_spec w.mem s.to_ s.toCap rcpt grow hs
  refine ⟨⟨?_, ?_, hi.2.2.1, hi.2.2.2⟩, Or.inr a4, a5, rfl⟩
  · intro x hx
    have hx' : x ∈ w.mem.objs := by
      have : (session.Rcpt w.mem s rcpt grow).1.objs = w.mem.objs := a1
      rw [← this]; exact hx
    have hok := hi.1 x hx'
    refine ⟨a3 _ hok.1, ?_⟩
    have hb : (session.Rcpt w.mem s rcpt grow).1.byteArrs = w.mem.byteArrs := a2
    unfold Memory.okBytes
    rw [hb]
    exact hok.2
  · intro e he
    have : (session.Rcpt w.mem s rcpt grow).1.objs = w.mem.objs := a1
    show e.2 < (session.Rcpt w.mem s rcpt grow).1.objs.length
    rw [this]
    exact hi.2.1 e he

/-- The slice of a session in a memory whose string arrays extend the old ones. -/
theorem okSession_of_le (m m1 : Memory) (s : session) (h : m.strArrs <+: m1.strArrs)
    (hs : m.okSession s) :
    m1.okSession s ∧ m1.readStrs s.to_ = m.readStrs s.to_ := by
  refine ⟨?_, readStrs_of_le m m1 _ h (okStrs_of_okSession m s hs)⟩
  rcases hs with h0 | ⟨h1, h2, h3⟩
  · exact Or.inl h0
  · refine Or.inr ⟨h1, lt_of_lt_of_le h2 h.length_le, ?_⟩
    rw [getD_of_initial _ _ _ _ h h2]; exact h3

/-- `Data` on a payload that was read: it does not panic, it returns `nil`, it
calls `Add` once, with a new message made of the sender and the recipients of the
session and of the payload; the message is then in the store under the id `Add`
gave it. -/
theorem Data_spec (str : List Byte → String) (w : World) (s : session) (payload : List Byte)
    (now : String) (hi : w.Inv) (hs : w.mem.okSession s) :
    ∃ w1, session.Data str w s (.ok payload) now =
        some ⟨w1, none, [(w.mem.objs.length,
          ⟨0, s.from_, w.mem.readStrs s.to_, "", str payload, "", payload⟩)]⟩ ∧
      w1.Inv ∧ w1.mem.okSession s ∧ w1.mem.readStrs s.to_ = w.mem.readStrs s.to_ ∧
      mapGet w1.store.messages w.store.nextID = some w.mem.objs.length ∧
      w1.store.nextID = w.store.nextID + 1 ∧
      w1.mem.value w.mem.objs.length =
        some ⟨w.store.nextID, s.from_, w.mem.readStrs s.to_, "", str payload, now, payload⟩ := by
  have hto := okStrs_of_okSession w.mem s hs
  generalize hm1 : ({ w.mem with byteArrs := w.mem.byteArrs ++ [payload] } : Memory) = m1
  have hm1o : m1.objs = w.mem.objs := by rw [← hm1]
  have hm1s : m1.strArrs = w.mem.strArrs := by rw [← hm1]
  have hm1b : m1.byteArrs = w.mem.byteArrs ++ [payload] := by rw [← hm1]
  have hraw : m1.readBytes ⟨w.mem.byteArrs.length, 0, payload.length⟩ = payload := by
    simp [Memory.readBytes, hm1b, List.getD_eq_getElem?_getD]
  have hrto : m1.readStrs s.to_ = w.mem.readStrs s.to_ := by
    unfold Memory.readStrs; rw [hm1s]
  generalize hmsg : Message.mk 0 s.from_ s.to_ "" (str payload) ""
    ⟨w.mem.byteArrs.length, 0, payload.length⟩ = msg
  generalize hm2 : ({ m1 with objs := m1.objs ++ [msg] } : Memory) = m2
  have hm2o : m2.objs = w.mem.objs ++ [msg] := by rw [← hm2, hm1o]
  have hm2s : m2.strArrs = w.mem.strArrs := by rw [← hm2, hm1s]
  have hm2b : m2.byteArrs = w.mem.byteArrs ++ [payload] := by rw [← hm2, hm1b]
  have hfrom : msgFromRaw str m1 s.from_ s.to_ ⟨w.mem.byteArrs.length, 0, payload.length⟩ =
      (m2, w.mem.objs.length) := by
    unfold msgFromRaw
    simp only [hraw, hmsg]
    rw [hm2, hm1o]
  have hmsgTo : msg.To = s.to_ := by rw [← hmsg]
  have hmsgRaw : msg.Raw = ⟨w.mem.byteArrs.length, 0, payload.length⟩ := by rw [← hmsg]
  have hle : w.mem.Le m2 :=
    ⟨by rw [hm2o]; exact List.prefix_append _ _, by rw [hm2s],
      by rw [hm2b]; exact List.prefix_append _ _⟩
  have hwf2 : m2.WF := by
    apply WF_of_arrLe w.mem m2 hi.1 hle.2
    intro y hy
    rw [hm2o] at hy
    rcases List.mem_append.1 hy with h | h
    · exact Or.inl ⟨y, h, rfl, rfl⟩
    · rw [List.mem_singleton] at h
      rw [h, hmsgTo, hmsgRaw]
      refine Or.inr ⟨okStrs_of_le w.mem m2 _ hle.2.1 hto, Or.inr ⟨?_, ?_⟩⟩
      · rw [hm2b]; simp
      · simp [hm2b, List.getD_eq_getElem?_getD]
  have hi2 : World.Inv ⟨m2, w.store⟩ := Inv_of_le w m2 hi hle hwf2
  have hv : m2.value w.mem.objs.length =
      some ⟨0, s.from_, w.mem.readStrs s.to_, "", str payload, "", payload⟩ := by
    have h1 : m2.objs[w.mem.objs.length]? = some msg := by rw [hm2o]; simp
    have h2 : m2.readStrs s.to_ = w.mem.readStrs s.to_ := by
      unfold Memory.readStrs; rw [hm2s]
    have h3 : m2.readBytes ⟨w.mem.byteArrs.length, 0, payload.length⟩ = payload := by
      simp [Memory.readBytes, hm2b, List.getD_eq_getElem?_getD]
    simp only [Memory.value, h1, Option.map_some', Memory.valueOf, hmsgTo, hmsgRaw, h2, h3]
    rw [← hmsg]
  have hp : w.mem.objs.length < (World.mk m2 w.store).mem.objs.length := by
    show w.mem.objs.length < m2.objs.length
    rw [hm2o]; simp
  obtain ⟨w1, ha, _, _⟩ := Add_of_lt ⟨m2, w.store⟩ w.mem.objs.length now hp
  obtain ⟨i1, _, i3, _, i5, _, i7, _, i9⟩ := Add_inv ⟨m2, w.store⟩ w1 _ now _ hi2 ha
  have hs2 := okSession_of_le w.mem m2 s hle.2.1 hs
  have hs3 := okSession_of_le m2 w1.mem s i5.1.1 hs2.1
  refine ⟨w1, ?_, i1, hs3.1, hs3.2.trans hs2.2, i7, i3, ?_⟩
  · simp only [session.Data, hm1, hfrom, hv, ha]
  · have : (World.mk m2 w.store).mem.value w.mem.objs.length = m2.value w.mem.objs.length := rfl
    rw [i9, this, hv]
    rfl

/-- Every event keeps the invariant of the store and of the session; a `Rcpt`
adds its recipient to those of the session, a step of someone else leaves them. -/
theorem apply_inv (str : List Byte → String) (w w1 : World) (s s1 : session) (e : Event)
    (hi : w.Inv) (hs : w.mem.okSession s) (h : e.apply str w s = some (w1, s1)) :
    w1.Inv ∧ w1.mem.okSession s1 ∧
      (e.isRcptOrOther = true →
        s1.from_ = s.from_ ∧ w1.mem.readStrs s1.to_ = w.mem.readStrs s.to_ ++ rcptsOf [e]) := by
  cases e with
  | cmd c =>
    cases c with
    | mail sender =>
      simp only [Event.apply, Option.some.injEq, Prod.mk.injEq] at h
      obtain ⟨rfl, rfl⟩ := h
      exact ⟨hi, Or.inl ⟨rfl, rfl⟩, fun hh => by cases hh⟩
    | rcpt rcpt grow =>
      simp only [Event.apply, Option.some.injEq, Prod.mk.injEq] at h
      obtain ⟨rfl, rfl⟩ := h
      obtain ⟨r1, r2, r3, r4⟩ := Rcpt_spec w s rcpt grow hi hs
      exact ⟨r1, r2, fun _ => ⟨r4, r3⟩⟩
    | data read now =>
      cases read with
      | error err =>
        simp only [Event.apply, session.Data, Option.some.injEq, Prod.mk.injEq] at h
        obtain ⟨rfl, rfl⟩ := h
        exact ⟨hi, hs, fun hh => by cases hh⟩
      | ok payload =>
        obtain ⟨w2, d1, d2, d3, _⟩ := Data_spec str w s payload now hi hs
        simp only [Event.apply, d1, Option.some.injEq, Prod.mk.injEq] at h
        obtain ⟨rfl, rfl⟩ := h
        exact ⟨d2, d3, fun hh => by cases hh⟩
    | reset =>
      simp only [Event.apply, Option.some.injEq, Prod.mk.injEq] at h
      obtain ⟨rfl, rfl⟩ := h
      exact ⟨hi, hs, fun hh => by cases hh⟩
    | logout =>
      simp only [Event.apply, Option.some.injEq, Prod.mk.injEq] at h
      obtain ⟨rfl, rfl⟩ := h
      exact ⟨hi, hs, fun hh => by cases hh⟩
  | other op =>
    cases hst : step w op with
    | none => simp [Event.apply, hst] at h
    | some r =>
      simp only [Event.apply, hst, Option.some.injEq, Prod.mk.injEq] at h
      obtain ⟨rfl, rfl⟩ := h
      obtain ⟨s1, s2, _⟩ := step_inv w r.1 op r.2 hi hst
      obtain ⟨k1, k2⟩ := okSession_of_le w.mem r.1.mem s s2.1.1 hs
      exact ⟨s1, k1, fun _ => ⟨rfl, by rw [k2]; simp [rcptsOf]⟩⟩

theorem runEvents_inv (str : List Byte → String) (evs : List Event) :
    ∀ (w w1 : World) (s s1 : session), w.Inv → w.mem.okSession s →
      runEvents str w s evs = some (w1, s1) → w1.Inv ∧ w1.mem.okSession s1 := by
  induction evs with
  | nil =>
    intro w w1 s s1 hi hs h
    simp only [runEvents, Option.some.injEq, Prod.mk.injEq] at h
    obtain ⟨rfl, rfl⟩ := h
    exact ⟨hi, hs⟩
  | cons e rest ih =>
    intro w w1 s s1 hi hs h
    cases ha : e.apply str w s with
    | none => simp [runEvents, ha] at h
    | some r =>
      simp only [runEvents, ha] at h
      obtain ⟨a1, a2, _⟩ := apply_inv str w r.1 s r.2 e hi hs ha
      exact ih r.1 w1 r.2 s1 a1 a2 h

theorem runEvents_append (str : List Byte → String) (evs1 evs2 : List Event) :
    ∀ (w w2 : World) (s s2 : session), runEvents str w s (evs1 ++ evs2) = some (w2, s2) →
      ∃ w1 s1, runEvents str w s evs1 = some (w1, s1) ∧
        runEvents str w1 s1 evs2 = some (w2, s2) := by
  induction evs1 with
  | nil =>
    intro w w2 s s2 h
    exact ⟨w, s, rfl, h⟩
  | cons e rest ih =>
    intro w w2 s s2 h
    rw [List.cons_append] at h
    cases ha : e.apply str w s with
    | none => simp [runEvents, ha] at h
    | some r =>
      simp only [runEvents, ha] at h
      obtain ⟨w1, s1, b1, b2⟩ := ih r.1 w2 r.2 s2 h
      exact ⟨w1, s1, by simp only [runEvents, ha, b1], b2⟩

/-- Events that are `Rcpt` calls of the session and steps of others: the sender
stays, the recipients of the `Rcpt` calls are added in call order. -/
theorem runEvents_rcpts (str : List Byte → String) (evs : List Event) :
    ∀ (w w1 : World) (s s1 : session), w.Inv → w.mem.okSession s →
      (∀ e ∈ evs, e.isRcptOrOther = true) → runEvents str w s evs = some (w1, s1) →
      s1.from_ = s.from_ ∧ w1.mem.readStrs s1.to_ = w.mem.readStrs s.to_ ++ rcptsOf evs := by
  induction evs with
  | nil =>
    intro w w1 s s1 _ _ _ h
    simp only [runEvents, Option.some.injEq, Prod.mk.injEq] at h
    obtain ⟨rfl, rfl⟩ := h
    exact ⟨rfl, by simp [rcptsOf]⟩
  | cons e rest ih =>
    intro w w1 s s1 hi hs hall h
    cases ha : e.apply str w s with
    | none => simp [runEvents, ha] at h
    | some r =>
      simp only [runEvents, ha] at h
      obtain ⟨a1, a2, a3⟩ := apply_inv str w r.1 s r.2 e hi hs ha
      obtain ⟨b1, b2⟩ := a3 (hall e (List.mem_cons_self _ _))
      obtain ⟨c1, c2⟩ := ih r.1 w1 r.2 s1 a1 a2
        (fun e1 he1 => hall e1 (List.mem_cons_of_mem _ he1)) h
      refine ⟨c1.trans b1, ?_⟩
      rw [c2, b2, List.append_assoc]
      congr 1
      unfold rcptsOf
      rw [← List.filterMap_append]
      rfl

/-! ## The claims -/

/-- C1: from a store that is fresh (`NewStorage`) or has just been cleared,
`N` consecutive `Add` calls on `N` messages return the ids `1, 2, ..., N` in
that order: the call number `k + 1` returns `k + 1`, no id is repeated, and the
ids returned are exactly the integers from `1` to `N`. -/
theorem Add_returns_one_to_n (w : World) (args : List (Nat × String))
    (hfresh : w.store = NewStorage ∨ ∃ w0, w = Storage.Clear w0)
    (hargs : ∀ a ∈ args, a.1 < w.mem.objs.length) :
    ∃ w1 ids, addAll w args = some (w1, ids) ∧ ids.length = args.length ∧
      (∀ k : Nat, k < args.length → ids[k]? = some ((k : Int) + 1)) ∧ ids.Nodup ∧
      (∀ i : Int, i ∈ ids ↔ 1 ≤ i ∧ i ≤ (args.length : Int)) := by
  obtain ⟨w1, h1⟩ := addAll_ids args w hargs
  rw [fresh_nextID w hfresh] at h1
  refine ⟨w1, _, h1, idsFrom_length _ _, ?_, idsFrom_nodup _ _, ?_⟩
  · intro k hk
    simp only [idsFrom, List.getElem?_map, List.getElem?_range hk, Option.map_some',
      Int.ofNat_eq_coe, Option.some.injEq]
    omega
  · intro i
    rw [mem_idsFrom]; omega

/-- C1 at a concrete input: two messages, the first handed to `Add` twice. -/
theorem Add_returns_one_to_n_witness :
    ∃ w1 ids, addAll ⟨⟨[⟨0, "a", Slice.nil, "", "", "", Slice.nil⟩,
        ⟨7, "b", Slice.nil, "", "", "", Slice.nil⟩], [], []⟩, NewStorage⟩
        [(0, "t1"), (1, "t2"), (0, "t3")] = some (w1, ids) ∧ ids.length = 3 ∧
      (∀ k : Nat, k < 3 → ids[k]? = some ((k : Int) + 1)) ∧ ids.Nodup ∧
      (∀ i : Int, i ∈ ids ↔ 1 ≤ i ∧ i ≤ ((3 : Nat) : Int)) :=
  Add_returns_one_to_n ⟨⟨[⟨0, "a", Slice.nil, "", "", "", Slice.nil⟩,
        ⟨7, "b", Slice.nil, "", "", "", Slice.nil⟩], [], []⟩, NewStorage⟩
    [(0, "t1"), (1, "t2"), (0, "t3")] (Or.inl rfl) (by decide)

/-- C2: in every state reached from the start by `Add`, `Clear`, `Get`, `List`
calls and allocations, `Get(id)` returns, and it reports found exactly when `id`
was returned by an `Add` made after the most recent `Clear` (after the start when
there was none).  Those ids are `1, ..., n` for the `n` calls of `Add` since
then; so `Get` reports not-found on a store without `Add` since its creation or
its last `Clear`, for `id <= 0`, for `id > n`, and for an id issued only before
the last `Clear`. -/
theorem Get_found_iff_issued (ops : List Op) (w : World) (rets : List Ret) (id : Int)
    (h : run World.init ops = some (w, rets)) :
    ∃ w1 r, Storage.Get w id = some (w1, r) ∧
      (r.isSome = true ↔ id ∈ issued rets) ∧
      issued rets = idsFrom 1 (addsSinceClear ops) ∧
      (addsSinceClear ops = 0 → r = none) ∧
      (id ≤ 0 → r = none) ∧
      ((addsSinceClear ops : Int) < id → r = none) ∧
      (id ∈ everIssued rets → id ∉ issued rets → r = none) := by
  obtain ⟨hi, h1, h2⟩ := run_init ops w rets h
  have hkeys : (mapGet w.store.messages id).isSome = true ↔ id ∈ issued rets := by
    rw [mapGet_isSome, h1]
    exact hi.2.2.2.mem_iff
  have hmem := mem_idsFrom 1 w.count id
  rw [← h1] at hmem
  have hfound : ∃ w1 r, Storage.Get w id = some (w1, r) ∧
      (r.isSome = true ↔ id ∈ issued rets) := by
    rcases Get_spec w id hi with ⟨g1, g2⟩ | ⟨p, x, w1, c, g1, _, g3, _⟩
    · refine ⟨w, none, g2, ?_⟩
      rw [← hkeys, g1]
    · refine ⟨w1, some w.mem.objs.length, g3, ?_⟩
      rw [← hkeys, g1]; simp
  obtain ⟨w1, r, hg, hiff⟩ := hfound
  have hnone : id ∉ issued rets → r = none := by
    intro hn
    cases r with
    | none => rfl
    | some q => exact absurd (hiff.1 rfl) hn
  refine ⟨w1, r, hg, hiff, by rw [h1, h2], ?_, ?_, ?_, fun _ hn => hnone hn⟩
  · intro h0
    apply hnone
    rw [hmem, ← h2, h0]
    omega
  · intro h0
    apply hnone
    rw [hmem]
    omega
  · intro h0
    apply hnone
    rw [hmem, ← h2]
    omega

/-- C2 at a concrete input: two `Add`, a `Clear`, one `Add`; then `Get(2)`, an id
issued only before the `Clear`. -/
theorem Get_found_iff_issued_witness :
    run World.init [.newMsg ⟨0, "a", Slice.nil, "", "", "", Slice.nil⟩, .add 0 "t1", .add 0 "t2",
      .clear, .add 0 "t3"] =
      some (⟨⟨[⟨1, "a", Slice.nil, "", "", "t3", Slice.nil⟩], [], []⟩, ⟨[(1, 0)], 2⟩⟩,
        [.addr 0, .id 1, .id 2, .cleared, .id 1]) ∧
    (∃ w1 r, Storage.Get ⟨⟨[⟨1, "a", Slice.nil, "", "", "t3", Slice.nil⟩], [], []⟩,
        ⟨[(1, 0)], 2⟩⟩ 2 = some (w1, r) ∧
      (r.isSome = true ↔ (2 : Int) ∈ issued [.addr 0, .id 1, .id 2, .cleared, .id 1]) ∧
      issued [.addr 0, .id 1, .id 2, .cleared, .id 1] =
        idsFrom 1 (addsSinceClear [.newMsg ⟨0, "a", Slice.nil, "", "", "", Slice.nil⟩,
          .add 0 "t1", .add 0 "t2", .clear, .add 0 "t3"]) ∧
      (addsSinceClear [.newMsg ⟨0, "a", Slice.nil, "", "", "", Slice.nil⟩,
          .add 0 "t1", .add 0 "t2", .clear, .add 0 "t3"] = 0 → r = none) ∧
      ((2 : Int) ≤ 0 → r = none) ∧
      ((addsSinceClear [.newMsg ⟨0, "a", Slice.nil, "", "", "", Slice.nil⟩,
          .add 0 "t1", .add 0 "t2", .clear, .add 0 "t3"] : Int) < 2 → r = none) ∧
      ((2 : Int) ∈ everIssued [.addr 0, .id 1, .id 2, .cleared, .id 1] →
        (2 : Int) ∉ issued [.addr 0, .id 1, .id 2, .cleared, .id 1] → r = none)) ∧
    issued [.addr 0, .id 1, .id 2, .cleared, .id 1] = [1] ∧
    everIssued [.addr 0, .id 1, .id 2, .cleared, .id 1] = [1, 2, 1] :=
  ⟨rfl, Get_found_iff_issued [.newMsg ⟨0, "a", Slice.nil, "", "", "", Slice.nil⟩,
    .add 0 "t1", .add 0 "t2", .clear, .add 0 "t3"] _ _ 2 (by rfl), rfl, rfl⟩

/-- C3: whatever the store holds and whatever its counter is, after `Clear` a
`List()` returns an empty collection (and changes nothing), and the next `Add`
returns `1`. -/
theorem Clear_resets (w : World) (iter : List (Int × Nat)) (p : Nat) (now : String)
    (hiter : iter.Perm (Storage.Clear w).store.messages) (hp : p < w.mem.objs.length) :
    Storage.List (Storage.Clear w) iter = some (Storage.Clear w, []) ∧
      ∃ w1, Storage.Add (Storage.Clear w) p now = some (w1, 1) := by
  have hnil : iter = [] := List.Perm.eq_nil hiter
  subst hnil
  refine ⟨rfl, ?_⟩
  obtain ⟨w1, h1, _⟩ := Add_of_lt (Storage.Clear w) p now hp
  exact ⟨w1, h1⟩

/-- C3 at a concrete input: a store with three keys and the counter at `4`. -/
theorem Clear_resets_witness :
    Storage.List (Storage.Clear ⟨⟨[⟨3, "a", Slice.nil, "", "", "t", Slice.nil⟩], [], []⟩,
        ⟨[(3, 0), (2, 0), (1, 0)], 4⟩⟩) [] =
      some (Storage.Clear ⟨⟨[⟨3, "a", Slice.nil, "", "", "t", Slice.nil⟩], [], []⟩,
        ⟨[(3, 0), (2, 0), (1, 0)], 4⟩⟩, []) ∧
      ∃ w1, Storage.Add (Storage.Clear ⟨⟨[⟨3, "a", Slice.nil, "", "", "t", Slice.nil⟩], [], []⟩,
        ⟨[(3, 0), (2, 0), (1, 0)], 4⟩⟩) 0 "u" = some (w1, 1) :=
  Clear_resets ⟨⟨[⟨3, "a", Slice.nil, "", "", "t", Slice.nil⟩], [], []⟩,
    ⟨[(3, 0), (2, 0), (1, 0)], 4⟩⟩ [] 0 "u" (List.Perm.refl _) (by decide)

/-- C4: in every reachable state, for every message `m` (any non-nil pointer,
whatever `ID` and `CreatedAt` it holds), `Add(m)` returns an id, and the `Get` of
that id made next reports found and returns a message that has that id, the
timestamp of the `Add` as `CreatedAt`, and the `From`, `To` (same elements, same
order), `Subject`, `Body` and `Raw` bytes of `m`. -/
theorem Add_then_Get (ops : List Op) (w : World) (rets : List Ret) (p : Nat) (now : String)
    (h : run World.init ops = some (w, rets)) (hp : p < w.mem.objs.length) :
    ∃ w1 id w2 q v, Storage.Add w p now = some (w1, id) ∧
      Storage.Get w1 id = some (w2, some q) ∧ w.mem.value p = some v ∧
      w2.mem.value q = some { v with ID := id, CreatedAt := now } := by
  obtain ⟨hi, _, _⟩ := run_init ops w rets h
  obtain ⟨w1, ha, _, _⟩ := Add_of_lt w p now hp
  obtain ⟨i1, _, _, _, _, i6, i7, _, i9⟩ := Add_inv w w1 p now _ hi ha
  rcases Get_spec w1 w.store.nextID i1 with ⟨g1, _⟩ | ⟨p', x, w2, c, g1, g2, g3, _, g5, _, _, g8, _⟩
  · rw [i7] at g1; cases g1
  · rw [i7] at g1
    simp only [Option.some.injEq] at g1
    subst g1
    have hv : w.mem.value p = some (w.mem.valueOf (w.mem.objs[p])) := by
      simp [Memory.value, List.getElem?_eq_getElem hp]
    refine ⟨w1, _, w2, _, _, ha, g3, hv, ?_⟩
    have hq : w2.mem.value w1.mem.objs.length = some (w1.mem.valueOf x) := by
      simp [Memory.value, g5, g8]
    rw [hq]
    have hx : w1.mem.value p = some (w1.mem.valueOf x) := by
      simp [Memory.value, g2]
    rw [← hx, i9, hv]
    rfl

/-- C4 at a concrete input: the message of `TestStorage_Get`. -/
theorem Add_then_Get_witness :
    run World.init (testOps.take 3) =
      some (⟨⟨[⟨0, "sender@example.com", ⟨0, 0, 2⟩, "Test Subject", "Test Body", "", ⟨0, 0, 3⟩⟩],
        [["recipient@example.com", "another@example.com"]], [[114, 97, 119]]⟩, NewStorage⟩,
        [.addr 0, .addr 0, .addr 0]) ∧
    (∃ w1 id w2 q v, Storage.Add ⟨⟨[⟨0, "sender@example.com", ⟨0, 0, 2⟩, "Test Subject",
        "Test Body", "", ⟨0, 0, 3⟩⟩], [["recipient@example.com", "another@example.com"]],
        [[114, 97, 119]]⟩, NewStorage⟩ 0 "2024-05-01T10:00:00Z" = some (w1, id) ∧
      Storage.Get w1 id = some (w2, some q) ∧
      (Memory.mk [⟨0, "sender@example.com", ⟨0, 0, 2⟩, "Test Subject", "Test Body", "",
        ⟨0, 0, 3⟩⟩] [["recipient@example.com", "another@example.com"]]
        [[114, 97, 119]]).value 0 = some v ∧
      w2.mem.value q = some { v with ID := id, CreatedAt := "2024-05-01T10:00:00Z" }) ∧
    (Storage.Get testWorld 1).map (fun r => r.2.map r.1.mem.value) =
      some (some (some testValue)) :=
  ⟨rfl, Add_then_Get (testOps.take 3) _ _ 0 "2024-05-01T10:00:00Z" (by rfl) (by decide), rfl⟩

/-- C5, the code at the failing input: the message of `BenchmarkStorage_Add` is
handed to `Add` twice.  After the first `Add` (id `1`, at time `T1`), `Get(1)`
returns a message with `ID = 1` and `CreatedAt = T1`; after the second `Add` of
the same pointer (id `2`, at time `T2`), `Get(1)` returns a message with `ID = 2`
and `CreatedAt = T2`: the stored message changed. -/
theorem Get_changes_after_Add_of_same_message :
    ∃ wa wb,
      run World.init [.newStrs ["recipient@example.com"],
        .newMsg ⟨0, "sender@example.com", ⟨0, 0, 1⟩, "Test", "Test", "", Slice.nil⟩,
        .add 0 "2024-05-01T10:00:00Z", .get 1] =
        some (wa, [.addr 0, .addr 0, .id 1, .got (some 1)]) ∧
      wa.mem.value 1 = some ⟨1, "sender@example.com", ["recipient@example.com"], "Test", "Test",
        "2024-05-01T10:00:00Z", []⟩ ∧
      run World.init [.newStrs ["recipient@example.com"],
        .newMsg ⟨0, "sender@example.com", ⟨0, 0, 1⟩, "Test", "Test", "", Slice.nil⟩,
        .add 0 "2024-05-01T10:00:00Z", .get 1, .add 0 "2024-05-01T10:00:07Z", .get 1] =
        some (wb, [.addr 0, .addr 0, .id 1, .got (some 1), .id 2, .got (some 2)]) ∧
      wb.mem.value 2 = some ⟨2, "sender@example.com", ["recipient@example.com"], "Test", "Test",
        "2024-05-01T10:00:07Z", []⟩ :=
  ⟨_, _, rfl, rfl, rfl, rfl⟩

/-- C6: in every reachable state, every element of the result of `List()` has an
empty `Raw` (a `nil` slice, no bytes), whatever the order the map is enumerated
in; and for every `Add` of the trace with no `Clear` after it, `Get` of the id
that `Add` returned finds a message whose `Raw` bytes are the bytes the message
had when it was handed to `Add`. -/
theorem List_hides_raw_Get_returns_raw (ops : List Op) (w : World) (rets : List Ret)
    (h : run World.init ops = some (w, rets)) :
    (∀ iter : List (Int × Nat), iter.Perm w.store.messages →
      ∃ w1 qs, Storage.List w iter = some (w1, qs) ∧ qs.length = w.store.messages.length ∧
        ∀ q ∈ qs, ∃ c v, w1.mem.objs[q]? = some c ∧ c.Raw.len = 0 ∧
          w1.mem.value q = some v ∧ v.Raw = []) ∧
    (∀ (ops1 ops2 : List Op) (p : Nat) (now : String),
      ops = ops1 ++ Op.add p now :: ops2 → noClear ops2 →
      ∃ w1 rets1 w2 id v0 w5 q v, run World.init ops1 = some (w1, rets1) ∧
        Storage.Add w1 p now = some (w2, id) ∧ w1.mem.value p = some v0 ∧
        Storage.Get w id = some (w5, some q) ∧ w5.mem.value q = some v ∧ v.Raw = v0.Raw) := by
  refine ⟨?_, ?_⟩
  · intro iter hperm
    obtain ⟨hi, _, _⟩ := run_init ops w rets h
    obtain ⟨w1, qs, l1, _, _, _, _, l6, _, _, l9⟩ := List_spec w iter hi hperm
    refine ⟨w1, qs, l1, by rw [l6, List.length_range', hperm.length_eq], ?_⟩
    intro q hq
    obtain ⟨c, c1, c2, _⟩ := l9 q hq
    refine ⟨c, w1.mem.valueOf c, c1, by rw [c2]; rfl, by simp [Memory.value, c1], ?_⟩
    simp [Memory.valueOf, c2, Memory.readBytes, Slice.nil]
  · intro ops1 ops2 p now hops hnc
    subst hops
    obtain ⟨w1, rets1, w2, id, v0, w5, q, v, s1, s2, s3, s4, s5, _, _, _, _, s10⟩ :=
      stored_content ops1 ops2 p now w rets h hnc
    exact ⟨w1, rets1, w2, id, v0, w5, q, v, s1, s2, s3, s4, s5, s10⟩

/-- C6 at a concrete input: the message of `TestStorage_Get`, with the raw bytes
of `"raw"`. -/
theorem List_hides_raw_Get_returns_raw_witness :
    run World.init testOps = some (testWorld, [.addr 0, .addr 0, .addr 0, .id 1]) ∧
    [((1 : Int), 0)].Perm testWorld.store.messages ∧ noClear [] ∧
    (∃ w1 qs, Storage.List testWorld [(1, 0)] = some (w1, qs) ∧
      qs.length = testWorld.store.messages.length ∧
      ∀ q ∈ qs, ∃ c v, w1.mem.objs[q]? = some c ∧ c.Raw.len = 0 ∧
        w1.mem.value q = some v ∧ v.Raw = []) ∧
    (∃ w1 rets1 w2 id v0 w5 q v, run World.init (testOps.take 3) = some (w1, rets1) ∧
      Storage.Add w1 0 "2024-05-01T10:00:00Z" = some (w2, id) ∧ w1.mem.value 0 = some v0 ∧
      Storage.Get testWorld id = some (w5, some q) ∧ w5.mem.value q = some v ∧
      v.Raw = v0.Raw) ∧
    (Storage.Get testWorld 1).map (fun r => r.2.map r.1.mem.value) = some (some (some testValue)) :=
  ⟨rfl, List.Perm.refl _, by decide,
    (List_hides_raw_Get_returns_raw testOps testWorld _ (by rfl)).1 [(1, 0)] (List.Perm.refl _),
    (List_hides_raw_Get_returns_raw testOps testWorld _ (by rfl)).2 (testOps.take 3) [] 0
      "2024-05-01T10:00:00Z" (by rfl) (by decide), by rfl⟩

/-- C7, the code at the failing input: the message of `BenchmarkStorage_Add` is
handed to `Add` twice (ids `1` and `2`).  `List()` then returns two elements, and
both have `ID = 2`, in either order of enumeration of the map: the ids of the
elements are not distinct and `1` is missing. -/
theorem List_ids_after_Add_of_same_message :
    ∃ w wa wb,
      run World.init [.newStrs ["recipient@example.com"],
        .newMsg ⟨0, "sender@example.com", ⟨0, 0, 1⟩, "Test", "Test", "", Slice.nil⟩,
        .add 0 "2024-05-01T10:00:00Z", .add 0 "2024-05-01T10:00:07Z"] =
        some (w, [.addr 0, .addr 0, .id 1, .id 2]) ∧
      Storage.List w [(1, 0), (2, 0)] = some (wa, [1, 2]) ∧
      [1, 2].map (fun q => (wa.mem.value q).map Value.ID) = [some 2, some 2] ∧
      Storage.List w [(2, 0), (1, 0)] = some (wb, [1, 2]) ∧
      [1, 2].map (fun q => (wb.mem.value q).map Value.ID) = [some 2, some 2] :=
  ⟨_, _, _, rfl, rfl, rfl, rfl, rfl⟩

/-- C8: in every reachable state, `Get(id)` and `List()` return, leave the store
(map and counter) as it is and every stored message with the value it had.
Whatever the caller then assigns through the pointer `Get` returned (to a field,
to an element of `To`, to a byte of `Raw`), a second `Get(id)` returns a message
with the value the first one returned before the assignments; and whatever the
caller assigns to the elements `List()` returned, a second `List()` returns
elements with the values the first one returned (the same values in the same
order when the map is enumerated in the same order, the same values up to order
otherwise). -/
theorem reads_are_isolated (ops : List Op) (w : World) (rets : List Ret) (id : Int)
    (iter : List (Int × Nat)) (h : run World.init ops = some (w, rets))
    (hperm : iter.Perm w.store.messages) :
    (∃ w1 r, Storage.Get w id = some (w1, r) ∧ w1.store = w.store ∧
      (∀ e ∈ w.store.messages, w1.mem.value e.2 = w.mem.value e.2) ∧
      (r = none → Storage.Get w1 id = some (w1, none)) ∧
      ∀ q, r = some q → ∀ (es : List Edit) (m2 : Memory),
        w1.mem.editAll (es.map (fun e => (q, e))) = some m2 →
        ∃ w3 q3, Storage.Get ⟨m2, w1.store⟩ id = some (w3, some q3) ∧
          w3.mem.value q3 = w1.mem.value q ∧ (w1.mem.value q).isSome = true) ∧
    (∃ w1 qs, Storage.List w iter = some (w1, qs) ∧ w1.store = w.store ∧
      (∀ e ∈ w.store.messages, w1.mem.value e.2 = w.mem.value e.2) ∧
      ∀ (es : List (Nat × Edit)) (m2 : Memory), (∀ e ∈ es, e.1 ∈ qs) →
        w1.mem.editAll es = some m2 →
        ∀ iter2 : List (Int × Nat), iter2.Perm iter →
        ∃ w3 qs3, Storage.List ⟨m2, w1.store⟩ iter2 = some (w3, qs3) ∧
          (qs3.map w3.mem.value).Perm (qs.map w1.mem.value) ∧
          (iter2 = iter → qs3.map w3.mem.value = qs.map w1.mem.value)) := by
  obtain ⟨hi, _, _⟩ := run_init ops w rets h
  refine ⟨?_, ?_⟩
  · rcases Get_spec w id hi with ⟨g1, g2⟩ | ⟨p, x, w1, c, g1, g2, g3, g4, g5, g6, g7, g8, g9, g10⟩
    · exact ⟨w, none, g2, rfl, fun _ _ => rfl, fun _ => g2, fun q hq => by cases hq⟩
    · refine ⟨w1, _, g3, g4, fun e he => stored_value_of_le w w1.mem hi g6 e he,
        (fun hn => by cases hn), ?_⟩
      intro q hq es m2 hed
      simp only [Option.some.injEq] at hq
      subst hq
      have hc : w1.mem.objs[w.mem.objs.length]? = some c := by rw [g5]; simp
      have hfresh : w.mem.Fresh w1.mem [w.mem.objs.length] := by
        intro q hq
        rw [List.mem_singleton] at hq
        subst hq
        exact ⟨le_refl _, c, hc, g9, g10⟩
      have hall : ∀ e ∈ es.map (fun e => (w.mem.objs.length, e)), e.1 ∈ [w.mem.objs.length] := by
        intro e he
        obtain ⟨e0, _, rfl⟩ := List.mem_map.1 he
        exact List.mem_singleton.2 rfl
      obtain ⟨k1, k2⟩ := editAll_frame _ w.mem w1.mem m2 _ g6 g7.1 hfresh hall hed
      obtain ⟨w3, q3, a1, a2⟩ := Get_of_le w m2 id p x hi k1 k2 g1 g2
      have hv : w1.mem.value w.mem.objs.length = some (w.mem.valueOf x) := by
        simp [Memory.value, hc, g8]
      rw [g4]
      exact ⟨w3, q3, a1, by rw [a2, hv], by rw [hv]; rfl⟩
  · obtain ⟨w1, qs, l1, l2, l3, l4, _, l6, _, l8, l9⟩ := List_spec w iter hi hperm
    refine ⟨w1, qs, l1, l2, fun e he => stored_value_of_le w w1.mem hi l3 e he, ?_⟩
    intro es m2 hes hed iter2 hperm2
    have hfresh : w.mem.Fresh w1.mem qs := by
      intro q hq
      obtain ⟨c, c1, c2, c3⟩ := l9 q hq
      rw [l6] at hq
      exact ⟨(List.mem_range'_1.1 hq).1, c, c1, c3, Or.inl (by rw [c2]; rfl)⟩
    obtain ⟨k1, k2⟩ := editAll_frame _ w.mem w1.mem m2 _ l3 l4.1 hfresh hes hed
    have hi2 := Inv_of_le w m2 hi k1 k2
    rw [l2]
    obtain ⟨w3, qs3, n1, _, _, _, _, _, _, n8, _⟩ :=
      List_spec ⟨m2, w.store⟩ iter2 hi2 (hperm2.trans hperm)
    have hsame : iter2.map (fun e => (m2.value e.2).map Value.noRaw) =
        iter2.map (fun e => (w.mem.value e.2).map Value.noRaw) := by
      apply List.map_congr_left
      intro e he
      rw [stored_value_of_le w m2 hi k1 e ((hperm2.trans hperm).mem_iff.1 he)]
    have n8' : qs3.map w3.mem.value = iter2.map (fun e => (w.mem.value e.2).map Value.noRaw) :=
      n8.trans hsame
    refine ⟨w3, qs3, n1, ?_, ?_⟩
    · rw [n8', l8]
      exact hperm2.map _
    · intro heq
      rw [n8', l8, heq]

/-- C8 at a concrete input: the message of `TestStorage_Get`, and the three
assignments of `TestStorage_GetReturnsImmutableCopy` through the pointer that
`Get(1)` returned. -/
theorem reads_are_isolated_witness :
    run World.init testOps = some (testWorld, [.addr 0, .addr 0, .addr 0, .id 1]) ∧
    [((1 : Int), 0)].Perm testWorld.store.messages ∧
    ((∃ w1 r, Storage.Get testWorld 1 = some (w1, r) ∧ w1.store = testWorld.store ∧
      (∀ e ∈ testWorld.store.messages, w1.mem.value e.2 = testWorld.mem.value e.2) ∧
      (r = none → Storage.Get w1 1 = some (w1, none)) ∧
      ∀ q, r = some q → ∀ (es : List Edit) (m2 : Memory),
        w1.mem.editAll (es.map (fun e => (q, e))) = some m2 →
        ∃ w3 q3, Storage.Get ⟨m2, w1.store⟩ 1 = some (w3, some q3) ∧
          w3.mem.value q3 = w1.mem.value q ∧ (w1.mem.value q).isSome = true) ∧
    (∃ w1 qs, Storage.List testWorld [(1, 0)] = some (w1, qs) ∧ w1.store = testWorld.store ∧
      (∀ e ∈ testWorld.store.messages, w1.mem.value e.2 = testWorld.mem.value e.2) ∧
      ∀ (es : List (Nat × Edit)) (m2 : Memory), (∀ e ∈ es, e.1 ∈ qs) →
        w1.mem.editAll es = some m2 →
        ∀ iter2 : List (Int × Nat), iter2.Perm [(1, 0)] →
        ∃ w3 qs3, Storage.List ⟨m2, w1.store⟩ iter2 = some (w3, qs3) ∧
          (qs3.map w3.mem.value).Perm (qs.map w1.mem.value) ∧
          (iter2 = [(1, 0)] → qs3.map w3.mem.value = qs.map w1.mem.value))) ∧
    (∃ w1 m2 w3, Storage.Get testWorld 1 = some (w1, some 1) ∧
      w1.mem.editAll [(1, .setSubject "Modified Subject"), (1, .setTo 0 "modified@example.com"),
        (1, .setRaw 0 88)] = some m2 ∧
      m2.value 1 = some ⟨1, "sender@example.com", ["modified@example.com", "another@example.com"],
        "Modified Subject", "Test Body", "2024-05-01T10:00:00Z", [88, 97, 119]⟩ ∧
      Storage.Get ⟨m2, w1.store⟩ 1 = some (w3, some 2) ∧ w3.mem.value 2 = some testValue ∧
      w1.mem.value 1 = some testValue) :=
  ⟨rfl, List.Perm.refl _,
    reads_are_isolated testOps testWorld _ 1 [(1, 0)] (by rfl) (List.Perm.refl _),
    ⟨_, _, _, rfl, rfl, rfl, rfl, rfl, rfl⟩⟩

/-- C9, the code at the failing input.  The identifier `12abc` is not the
notation of an integer, yet `Sscanf` returns `12` and no error for it: both
handlers call `Storage.Get(12)` and answer 404 on an empty store, not 400.  On a
store that holds message `1`, the identifier `1abc` makes `handleEmail` answer
with message `1` and `handleRawEmail` with its raw bytes.  The identifiers `abc`
and the empty one are answered with 400 and without a call of `Storage.Get`. -/
theorem handlers_read_integer_before_trailing_text :
    sscanfInt "12abc" = some 12 ∧
    handleEmail World.init "GET" "12abc" =
      some ⟨World.init, .error 404 "Message not found", [12]⟩ ∧
    handleRawEmail World.init "GET" "12abc" =
      some ⟨World.init, .error 404 "Message not found", [12]⟩ ∧
    run World.init testOps = some (testWorld, [.addr 0, .addr 0, .addr 0, .id 1]) ∧
    (handleEmail testWorld "GET" "1abc").map (fun r => (r.response, r.getCalls)) =
      some (.json testValue.noRaw, [1]) ∧
    (handleRawEmail testWorld "GET" "1abc").map (fun r => (r.response, r.getCalls)) =
      some (.plain [114, 97, 119], [1]) ∧
    handleEmail testWorld "GET" "abc" = some ⟨testWorld, .error 400 "Invalid ID", []⟩ ∧
    handleRawEmail testWorld "GET" "" = some ⟨testWorld, .error 400 "Invalid ID", []⟩ :=
  ⟨rfl, rfl, rfl, rfl, rfl, rfl, rfl, rfl⟩

/-- C10, counterexample: `Add` takes a message without recipients (a `nil` `To`),
and `Get` then returns a stored message whose `To` is empty. -/
theorem stored_message_without_recipient :
    ∃ w w1 v,
      run World.init [.newMsg ⟨0, "sender@example.com", Slice.nil, "Test", "Test", "", Slice.nil⟩,
        .add 0 "2024-05-01T10:00:00Z"] = some (w, [.addr 0, .id 1]) ∧
      Storage.Get w 1 = some (w1, some 1) ∧ w1.mem.value 1 = some v ∧ v.To = [] :=
  ⟨_, _, _, rfl, rfl, rfl, rfl⟩

/-- C10, amended: in every state reached from the start, for every `Add` of the
trace with no `Clear` after it, `Get` of the id that `Add` returned finds a
message whose `To` is the sequence of recipients, in the same order, that the
message had when it was handed to `Add`; so the stored message has at least one
recipient exactly when the message handed to `Add` had one. -/
theorem stored_To_is_submitted_To (ops1 ops2 : List Op) (p : Nat) (now : String) (w : World)
    (rets : List Ret) (h : run World.init (ops1 ++ Op.add p now :: ops2) = some (w, rets))
    (hnc : noClear ops2) :
    ∃ w1 rets1 w2 id v0 w5 q v, run World.init ops1 = some (w1, rets1) ∧
      Storage.Add w1 p now = some (w2, id) ∧ w1.mem.value p = some v0 ∧
      Storage.Get w id = some (w5, some q) ∧ w5.mem.value q = some v ∧ v.To = v0.To ∧
      (v.To ≠ [] ↔ v0.To ≠ []) := by
  obtain ⟨w1, rets1, w2, id, v0, w5, q, v, s1, s2, s3, s4, s5, _, s7, _⟩ :=
    stored_content ops1 ops2 p now w rets h hnc
  exact ⟨w1, rets1, w2, id, v0, w5, q, v, s1, s2, s3, s4, s5, s7, by rw [s7]⟩

/-- C10, amended, at a concrete input: the message of `TestStorage_Get`. -/
theorem stored_To_is_submitted_To_witness :
    run World.init (testOps.take 3 ++ Op.add 0 "2024-05-01T10:00:00Z" :: []) =
      some (testWorld, [.addr 0, .addr 0, .addr 0, .id 1]) ∧ noClear [] ∧
    ∃ w1 rets1 w2 id v0 w5 q v, run World.init (testOps.take 3) = some (w1, rets1) ∧
      Storage.Add w1 0 "2024-05-01T10:00:00Z" = some (w2, id) ∧ w1.mem.value 0 = some v0 ∧
      Storage.Get testWorld id = some (w5, some q) ∧ w5.mem.value q = some v ∧ v.To = v0.To ∧
      (v.To ≠ [] ↔ v0.To ≠ []) :=
  ⟨rfl, by decide,
    stored_To_is_submitted_To (testOps.take 3) [] 0 "2024-05-01T10:00:00Z" testWorld _ (by rfl)
      (by decide)⟩

/-- C12: a session that lives among other users of the store is driven by
`Mail(f)`, then `Rcpt(r1)`, ..., `Rcpt(rk)` (steps of the others in between,
whatever came before the `Mail`), then `Data`.  When the payload is read, `Data`
does not panic, returns `nil` and calls `Storage.Add` exactly once, with a new
message whose `From` is `f`, whose `To` is `r1, ..., rk` in call order, whose `Raw`
is the payload, whose `Body` is `string(payload)`, whose `Subject` is empty (`ID`
and `CreatedAt` have their zero values); after the call the store holds that
message under the id and with the timestamp `Add` gave it.  When reading the
payload fails, `Data` returns the error, calls nothing and changes nothing. -/
theorem Data_adds_the_message_of_the_session (str : List Byte → String)
    (pre mid : List Event) (f : String) (w : World) (s : session) (payload : List Byte)
    (now : String) (hmid : ∀ e ∈ mid, e.isRcptOrOther = true)
    (h : runEvents str World.init NewSession (pre ++ Event.cmd (.mail f) :: mid) =
      some (w, s)) :
    (∃ w1 p id, session.Data str w s (.ok payload) now =
        some ⟨w1, none, [(p, ⟨0, f, rcptsOf mid, "", str payload, "", payload⟩)]⟩ ∧
      id = w.store.nextID ∧ w1.store.nextID = w.store.nextID + 1 ∧
      mapGet w1.store.messages id = some p ∧
      w1.mem.value p = some ⟨id, f, rcptsOf mid, "", str payload, now, payload⟩) ∧
    ∀ err, session.Data str w s (.error err) now = some ⟨w, some err, []⟩ := by
  obtain ⟨w0, s0, h1, h2⟩ := runEvents_append str pre _ World.init w NewSession s h
  obtain ⟨i0, k0⟩ := runEvents_inv str pre World.init w0 NewSession s0 init_inv
    (Or.inl ⟨rfl, rfl⟩) h1
  simp only [runEvents, Event.apply] at h2
  have k1 : w0.mem.okSession (s0.Mail f) := Or.inl ⟨rfl, rfl⟩
  obtain ⟨m1, m2⟩ := runEvents_rcpts str mid w0 w (s0.Mail f) s i0 k1 hmid h2
  obtain ⟨i2, k2⟩ := runEvents_inv str mid w0 w (s0.Mail f) s i0 k1 h2
  have hfrom : s.from_ = f := m1
  have hto : w.mem.readStrs s.to_ = rcptsOf mid := by
    rw [m2]
    simp [session.Mail, Memory.readStrs, Slice.nil]
  refine ⟨?_, fun err => rfl⟩
  obtain ⟨w1, d1, _, _, _, d5, d6, d7⟩ := Data_spec str w s payload now i2 k2
  rw [hfrom, hto] at d1 d7
  exact ⟨w1, _, _, d1, rfl, d6, d5, d7⟩

/-- C12 at a concrete input: a recipient before the `Mail`, then `Mail`, three
`Rcpt` (the second with room for four, so the third is written in place) with a
`Get` of someone else in between, then `Data` with the payload `"hi"`. -/
theorem Data_adds_the_message_of_the_session_witness :
    (∀ e ∈ [Event.cmd (.rcpt "a@x" 1), .other (.get 1), .cmd (.rcpt "b@x" 4),
      .cmd (.rcpt "c@x" 0)], e.isRcptOrOther = true) ∧
    runEvents byteChars World.init NewSession
      ([Event.cmd (.rcpt "old@x" 1)] ++ Event.cmd (.mail "f@x") ::
        [.cmd (.rcpt "a@x" 1), .other (.get 1), .cmd (.rcpt "b@x" 4), .cmd (.rcpt "c@x" 0)]) =
      some (⟨⟨[], [["old@x"], ["a@x"], ["a@x", "b@x", "c@x", ""]], []⟩, NewStorage⟩,
        ⟨"f@x", ⟨2, 0, 3⟩, 4⟩) ∧
    ((∃ w1 p id, session.Data byteChars
        ⟨⟨[], [["old@x"], ["a@x"], ["a@x", "b@x", "c@x", ""]], []⟩, NewStorage⟩
        ⟨"f@x", ⟨2, 0, 3⟩, 4⟩ (.ok [104, 105]) "2024-05-01T10:00:00Z" =
        some ⟨w1, none, [(p, ⟨0, "f@x", rcptsOf [Event.cmd (.rcpt "a@x" 1), .other (.get 1),
          .cmd (.rcpt "b@x" 4), .cmd (.rcpt "c@x" 0)], "", byteChars [104, 105], "",
          [104, 105]⟩)]⟩ ∧
      id = NewStorage.nextID ∧ w1.store.nextID = NewStorage.nextID + 1 ∧
      mapGet w1.store.messages id = some p ∧
      w1.mem.value p = some ⟨id, "f@x", rcptsOf [Event.cmd (.rcpt "a@x" 1), .other (.get 1),
          .cmd (.rcpt "b@x" 4), .cmd (.rcpt "c@x" 0)], "", byteChars [104, 105],
          "2024-05-01T10:00:00Z", [104, 105]⟩) ∧
    ∀ err, session.Data byteChars
        ⟨⟨[], [["old@x"], ["a@x"], ["a@x", "b@x", "c@x", ""]], []⟩, NewStorage⟩
        ⟨"f@x", ⟨2, 0, 3⟩, 4⟩ (.error err) "2024-05-01T10:00:00Z" =
      some ⟨⟨⟨[], [["old@x"], ["a@x"], ["a@x", "b@x", "c@x", ""]], []⟩, NewStorage⟩,
        some err, []⟩) ∧
    rcptsOf [Event.cmd (.rcpt "a@x" 1), .other (.get 1), .cmd (.rcpt "b@x" 4),
      .cmd (.rcpt "c@x" 0)] = ["a@x", "b@x", "c@x"] ∧
    byteChars [104, 105] = "hi" :=
  ⟨by decide, by rfl,
    Data_adds_the_message_of_the_session byteChars [Event.cmd (.rcpt "old@x" 1)]
      [.cmd (.rcpt "a@x" 1), .other (.get 1), .cmd (.rcpt "b@x" 4), .cmd (.rcpt "c@x" 0)]
      "f@x" _ _ [104, 105] "2024-05-01T10:00:00Z" (by decide) (by rfl), by rfl, by rfl⟩

end httpapi
